import Mathlib

/-!
Verification development for the wg-dynamic protocol core (src/common.c).

The C source is shallowly embedded: byte buffers are `List Nat` (each entry a
byte value 0..255), C strings are newline/NUL-free byte lists, heap-allocated
attribute nodes are entries of a Lean list, and the per-connection
`struct wg_dynamic_request` is a Lean structure.  The socket `read`/`write`
system calls are modelled by oracles (lists of outcomes) so that the
non-blocking I/O drivers `handle_request` and `send_message` become pure
functions of the oracle.

The repository header `common.h` is not part of the sources; the enum of keys,
the key-name table, `MAX_LINESIZE`, the errno constants and the initial
request state are modelled from the specification and marked as such.
-/

/-- Modelled from the spec: the fixed maximum line size `MAX_LINESIZE` from the
missing header `common.h`.  The spec only says lines are bounded by a fixed
maximum; 4096 is the concrete bound used by this development. -/
def MAX_LINESIZE : Nat := 4096

/-- Modelled from the spec: the read chunk bound `RECV_BUFSIZE` from the
missing header. -/
def RECV_BUFSIZE : Nat := 8192

/-- Linux errno value for E2BIG, the `LineTooLong` protocol error. -/
def E2BIG : Int := 7

/-- Linux errno value for EINVAL, the `InvalidInput`/`InvalidValue` error. -/
def EINVAL : Int := 22

/-- Linux errno value for ENOENT, used for unknown key names (and, as the
development shows, also for order violations). -/
def ENOENT : Int := 2

/-- Linux errno value for EPROTONOSUPPORT, the `UnsupportedVersion` error. -/
def EPROTONOSUPPORT : Int := 93

/-- Linux errno value for EWOULDBLOCK; on Linux EAGAIN has the same value. -/
def EWOULDBLOCK : Int := 11

/-- Linux address family constant AF_INET. -/
def AF_INET : Nat := 2

/-- Linux address family constant AF_INET6. -/
def AF_INET6 : Nat := 10

/-- Largest value of a C uint32_t. -/
def UINT32_MAX : Nat := 4294967295

/-- Largest value of a C uintmax_t (64 bits here). -/
def UINTMAX_MAX : Nat := 18446744073709551615

/-- Modelled from the spec: the key enum of the missing header `common.h`.
Per the spec the enum holds the sentinels `unknown` (the zero value, the
parse-failure marker) and `incomplete` (the internal fragment marker), the
command keys, a boundary marker `endcmd` separating command keys from
attribute keys, and the attribute keys.  The numeric values give the enum
ordering that `parse_line` compares against. -/
def WGKEY_UNKNOWN : Nat := 0

/-- Modelled from the spec: the internal fragment sentinel key. -/
def WGKEY_INCOMPLETE : Nat := 1

/-- Modelled from the spec: the one command key (wire name `request`). -/
def WGKEY_REQUEST : Nat := 2

/-- Modelled from the spec: the boundary marker between the command keys and
the attribute keys. -/
def WGKEY_ENDCMD : Nat := 3

/-- Attribute key for an IPv4 CIDR value (wire name `ipv4`). -/
def WGKEY_IPV4 : Nat := 4

/-- Attribute key for an IPv6 CIDR value (wire name `ipv6`). -/
def WGKEY_IPV6 : Nat := 5

/-- Attribute key for the lease start timestamp (wire name `leasestart`). -/
def WGKEY_LEASESTART : Nat := 6

/-- Attribute key for the lease duration (wire name `leasetime`). -/
def WGKEY_LEASETIME : Nat := 7

/-- Attribute key for the protocol error number (wire name `errno`). -/
def WGKEY_ERRNO : Nat := 8

/-- Attribute key for the error message text (wire name `errmsg`). -/
def WGKEY_ERRMSG : Nat := 9

/-- Bytes of a Lean string literal, for writing concrete wire inputs. -/
def strBytes (s : String) : List Nat := s.data.map Char.toNat

/-- Modelled from the spec: the key-name table `WG_DYNAMIC_KEY` of the missing
header, one textual name per key, indexed by the enum value. -/
def WG_DYNAMIC_KEY : List (List Nat) :=
  [strBytes "unknown", strBytes "incomplete", strBytes "request",
   strBytes "endcmd", strBytes "ipv4", strBytes "ipv6",
   strBytes "leasestart", strBytes "leasetime", strBytes "errno",
   strBytes "errmsg"]

/-- Byte classifier for C `isspace` in the POSIX locale: space and 0x09-0x0d. -/
def isSpaceB (b : Nat) : Bool := b = 32 ∨ (9 ≤ b ∧ b ≤ 13)

/-- Byte classifier for ASCII decimal digits. -/
def isDigitB (b : Nat) : Bool := 48 ≤ b ∧ b ≤ 57

/-- Value of a big-endian list of ASCII digit bytes. -/
def digitsVal (ds : List Nat) : Nat := ds.foldl (fun acc d => acc * 10 + (d - 48)) 0

/-- Index of the first occurrence of byte `c`, if any.  `memchr(buf, c, n)` of
the C source is `findByte c (buf.take n)`; the `take` realises the length
bound of the scan. -/
def findByte (c : Nat) : List Nat → Option Nat
  | [] => none
  | b :: bs => if b = c then some 0 else (findByte c bs).map (· + 1)

/-- Split at the first occurrence of byte `c`: C `strchr` followed by
overwriting the separator with NUL, which yields the part before the
separator and the part after it. -/
def splitFirst (c : Nat) : List Nat → Option (List Nat × List Nat)
  | [] => none
  | b :: bs =>
    if b = c then some ([], bs)
    else (splitFirst c bs).map (fun p => (b :: p.1, p.2))

/-- Digit-consuming tail of C `strtoumax(s, &endptr, 10)` after whitespace and
sign handling: take the maximal digit run; with no digits there is no
conversion (`none`, and C leaves `endptr = nptr`); otherwise return the
uintmax_t result (clamped to `UINTMAX_MAX` on overflow, negated modulo 2^64
under a minus sign) together with the bytes after the digit run (where
`endptr` points). -/
def strtoumaxDigits (neg : Bool) (s : List Nat) : Option (Nat × List Nat) :=
  if s.takeWhile isDigitB = [] then none
  else
    some (if UINTMAX_MAX < digitsVal (s.takeWhile isDigitB) then UINTMAX_MAX
          else if neg then (2 ^ 64 - digitsVal (s.takeWhile isDigitB)) % 2 ^ 64
          else digitsVal (s.takeWhile isDigitB),
      s.dropWhile isDigitB)

/-- C `strtoumax(s, &endptr, 10)`: skip leading whitespace, accept one
optional `+` or `-` sign, then a digit run.  `none` means no conversion was
performed (C then sets `endptr = nptr`, the start of the original string). -/
def strtoumax10 (s : List Nat) : Option (Nat × List Nat) :=
  match s.dropWhile isSpaceB with
  | [] => none
  | b :: r =>
    if b = 45 then strtoumaxDigits true r
    else if b = 43 then strtoumaxDigits false r
    else strtoumaxDigits false (b :: r)

/-- Modelled from the spec: one dotted-quad component as accepted by libc
`inet_pton(AF_INET, ...)`: one or more decimal digits, no leading zero,
value at most 255. -/
def pton4Comp (d : List Nat) : Option Nat :=
  if d ≠ [] ∧ d.all isDigitB ∧ (d.head? = some 48 → d = [48]) ∧ digitsVal d ≤ 255
  then some (digitsVal d) else none

/-- Split a byte list at every occurrence of byte `c`. -/
def splitAll (c : Nat) : List Nat → List (List Nat)
  | [] => [[]]
  | b :: bs =>
    let r := splitAll c bs
    if b = c then [] :: r
    else match r with
      | [] => [[b]]
      | h :: t => (b :: h) :: t

/-- Modelled from the spec: libc `inet_pton` for AF_INET — exactly four
dot-separated decimal components, yielding the four address bytes. -/
def inet_pton4 (s : List Nat) : Option (List Nat) :=
  match splitAll 46 s with
  | [a, b, c, d] =>
    match pton4Comp a, pton4Comp b, pton4Comp c, pton4Comp d with
    | some x, some y, some z, some w => some [x, y, z, w]
    | _, _, _, _ => none
  | _ => none

/-- Byte classifier for ASCII hexadecimal digits. -/
def isHexB (b : Nat) : Bool :=
  (48 ≤ b ∧ b ≤ 57) ∨ (97 ≤ b ∧ b ≤ 102) ∨ (65 ≤ b ∧ b ≤ 70)

/-- Value of one ASCII hexadecimal digit byte. -/
def hexVal (b : Nat) : Nat :=
  if b ≤ 57 then b - 48 else if b ≤ 70 then b - 55 else b - 87

/-- Value of a list of ASCII hexadecimal digit bytes. -/
def hexsVal (ds : List Nat) : Nat := ds.foldl (fun acc d => acc * 16 + hexVal d) 0

/-- Modelled from the spec: one colon-hex group of an IPv6 address, one to
four hexadecimal digits. -/
def pton6Group (g : List Nat) : Option Nat :=
  if g ≠ [] ∧ g.length ≤ 4 ∧ g.all isHexB then some (hexsVal g) else none

/-- Two bytes (big endian) of a 16-bit group value. -/
def groupBytes (v : Nat) : List Nat := [v / 256, v % 256]

/-- Modelled from the spec: libc `inet_pton` for AF_INET6 restricted to plain
colon-hex text — eight groups, or fewer with one `::` run of zero groups
(zone suffixes and embedded dotted quads are not modelled; no claim relies on
the exact IPv6 grammar). -/
def inet_pton6 (s : List Nat) : Option (List Nat) :=
  let parts := splitAll 58 s
  let expand : Option (List (List Nat)) :=
    if parts.count [] = 0 then
      if parts.length = 8 then some parts else none
    else
      -- a `::` shows up as adjacent empty parts; handle the legal shapes
      match parts with
      | [] => none
      | _ =>
        let lead := parts.takeWhile (· ≠ [])
        let tail := (parts.drop lead.length).dropWhile (· = [])
        let gaps := parts.length - lead.length - tail.length
        if 1 ≤ gaps ∧ gaps ≤ 3 ∧ tail.all (· ≠ []) ∧
           lead.length + tail.length ≤ 7 then
          some (lead ++ List.replicate (8 - lead.length - tail.length) (strBytes "0") ++ tail)
        else none
  match expand with
  | none => none
  | some gs =>
    match gs.mapM pton6Group with
    | none => none
    | some vs => some (vs.flatMap groupBytes)

/-- Dispatch of libc `inet_pton` on the address family, producing the 4 or 16
address bytes. -/
def inet_pton (fam : Nat) (s : List Nat) : Option (List Nat) :=
  if fam = AF_INET then inet_pton4 s
  else if fam = AF_INET6 then inet_pton6 s
  else none

/-- The `struct wg_combined_ip` of the missing header, modelled from the spec:
an address family, the 4 or 16 address bytes, and the prefix length field
`cidr`. -/
structure WgIp where
  family : Nat
  addr : List Nat
  cidr : Nat
deriving DecidableEq, Repr

/-- Translation of `parse_ip_cidr` from src/common.c.  The caller has preset
`ip->family`; an empty value yields the all-zero address with `cidr = 0`,
otherwise the value is split at the first `/` (byte 47), the front part goes
through `inet_pton` under the preset family and the suffix through
`strtoumax`, rejecting results above `UINT8_MAX`, trailing bytes
(`*endptr != 0`, valid because values are NUL-free) and an empty conversion
(`sep + 1 == endptr`). -/
def parse_ip_cidr (fam : Nat) (value : List Nat) : Option WgIp :=
  if value = [] then
    some ⟨fam, List.replicate (if fam = AF_INET then 4 else 16) 0, 0⟩
  else
    match splitFirst 47 value with
    | none => none
    | some (a, b) =>
      match inet_pton fam a with
      | none => none
      | some addr =>
        match strtoumax10 b with
        | none => none
        | some p => if 255 < p.1 ∨ p.2 ≠ [] then none else some ⟨fam, addr, p.1⟩

/-- Payload of one attribute node, the union in `parse_value`: a combined ip,
a uint32, the NUL-terminated error message bytes, or (for the `incomplete`
sentinel produced by `parse_line`) the raw undigested fragment bytes. -/
inductive AttrVal where
  | ip (ip : WgIp)
  | uint32 (n : Nat)
  | errmsg (bytes : List Nat)
  | raw (bytes : List Nat)
deriving DecidableEq, Repr

/-- Modelled from the spec: byte size of `struct wg_combined_ip`, the `len`
recorded for ip-valued attributes. -/
def SIZEOF_WG_COMBINED_IP : Nat := 20

/-- One `struct wg_dynamic_attr` node: key, payload length and payload. -/
structure WgAttr where
  key : Nat
  len : Nat
  value : AttrVal
deriving DecidableEq, Repr

/-- Translation of `parse_value` from src/common.c.  The uint32 keys go
through `strtoumax`; with no conversion C leaves `endptr = value`, so the
check `*endptr != 0` fails exactly on a nonempty value (values are NUL-free),
and the empty value decodes to 0.  The errmsg key copies at most 71 bytes
plus the NUL terminator.  Any other key is the C `BUG()` path, unreachable
from `parse_line`; it is modelled as `none`. -/
def parse_value (key : Nat) (value : List Nat) : Option WgAttr :=
  if key = WGKEY_IPV4 then
    (parse_ip_cidr AF_INET value).map (fun ip => ⟨key, SIZEOF_WG_COMBINED_IP, .ip ip⟩)
  else if key = WGKEY_IPV6 then
    (parse_ip_cidr AF_INET6 value).map (fun ip => ⟨key, SIZEOF_WG_COMBINED_IP, .ip ip⟩)
  else if key = WGKEY_LEASESTART ∨ key = WGKEY_LEASETIME ∨ key = WGKEY_ERRNO then
    match strtoumax10 value with
    | none => if value = [] then some ⟨key, 4, .uint32 0⟩ else none
    | some p =>
      if UINT32_MAX < p.1 ∨ p.2 ≠ [] then none else some ⟨key, 4, .uint32 p.1⟩
  else if key = WGKEY_ERRMSG then
    some ⟨key, min 72 (value.length + 1), .errmsg (value.take 71 ++ [0])⟩
  else none

/-- Translation of `parse_key` from src/common.c: exact match of the key text
against the name table, scanning enum values from 1 upward; no match gives
`WGKEY_UNKNOWN`. -/
def parse_key_go (e : Nat) (table : List (List Nat)) (k : List Nat) : Nat :=
  match table with
  | [] => WGKEY_UNKNOWN
  | t :: ts => if k = t then e else parse_key_go (e + 1) ts k

/-- Key lookup over the name table, starting at enum value 1 as in the C. -/
def parse_key (k : List Nat) : Nat := parse_key_go 1 (WG_DYNAMIC_KEY.drop 1) k

/-- The `struct wg_dynamic_request` of the missing header, modelled from the
spec: socket descriptor, command key, version, the owned attribute sequence
(`first`/`last` linked list, in order), and the pending-write buffer with its
length. -/
structure WgReq where
  fd : Int
  cmd : Nat
  version : Nat
  attrs : List WgAttr
  buf : Option (List Nat)
  buflen : Nat
deriving DecidableEq, Repr

/-- Result of one `parse_line` call, making all effects of the C function
explicit: `done` is the 0 return (end of message), `error e` the `-e` return,
`attr n a` a positive return `n` with `*attr = a` (which is the `incomplete`
sentinel holding the whole remaining buffer when no newline was found),
`cmdOk n c v` a positive return that also set `req->cmd` and `req->version`,
and `cmdBadVer c v` the `-EPROTONOSUPPORT` return that has already set
`req->cmd` and `req->version`. -/
inductive PLRes where
  | done
  | error (e : Int)
  | attr (n : Nat) (a : WgAttr)
  | cmdOk (n : Nat) (cmd : Nat) (ver : Nat)
  | cmdBadVer (cmd : Nat) (ver : Nat)
deriving DecidableEq, Repr

/-- Result of the line body before the consumed length is attached: an
error, a decoded attribute, a command/version pair accepted, or a
command/version pair with an unsupported version. -/
inductive PLBody where
  | error (e : Int)
  | attrV (a : WgAttr)
  | cmdOkV (cmd : Nat) (ver : Nat)
  | cmdBadV (cmd : Nat) (ver : Nat)
deriving DecidableEq, Repr

/-- Body of `parse_line` once a full line (the bytes before the newline) is
in hand: find `=`, look the key up, then parse either the command/version
line (when `req != NULL`, i.e. the command is still unset) or a key=value
attribute line. -/
def parse_line_body (line : List Nat) (cmdCtx : Bool) : PLBody :=
  match splitFirst 61 line with
  | none => .error EINVAL
  | some (keyB, valB) =>
    if parse_key keyB = WGKEY_UNKNOWN then .error ENOENT
    else if cmdCtx then
      if WGKEY_ENDCMD ≤ parse_key keyB then .error ENOENT
      else
        match strtoumax10 valB with
        | none => if valB = [] then .cmdBadV (parse_key keyB) 0 else .error EINVAL
        | some p =>
          if UINT32_MAX < p.1 ∨ p.2 ≠ [] then .error EINVAL
          else if p.1 = 1 then .cmdOkV (parse_key keyB) 1
          else .cmdBadV (parse_key keyB) p.1
    else
      if parse_key keyB ≤ WGKEY_ENDCMD then .error ENOENT
      else
        match parse_value (parse_key keyB) valB with
        | none => .error EINVAL
        | some a => .attrV a

/-- Translation of `parse_line` from src/common.c.  The newline scan
`memchr(buf, 10, min(len, MAX_LINESIZE))` is `findByte 10 (buf.take
MAX_LINESIZE)` (the take is also bounded by `len = buf.length`).  No newline
with `len >= MAX_LINESIZE` is the `-E2BIG` return; no newline otherwise
stashes the whole buffer in an `incomplete` sentinel attribute; a newline at
offset 0 is the end-of-message return. -/
def parse_line (buf : List Nat) (cmdCtx : Bool) : PLRes :=
  match findByte 10 (buf.take MAX_LINESIZE) with
  | none =>
    if MAX_LINESIZE ≤ buf.length then .error E2BIG
    else .attr buf.length ⟨WGKEY_INCOMPLETE, buf.length, .raw buf⟩
  | some 0 => .done
  | some (k + 1) =>
    match parse_line_body (buf.take (k + 1)) cmdCtx with
    | .error e => .error e
    | .attrV a => .attr (k + 2) a
    | .cmdOkV c v => .cmdOk (k + 2) c v
    | .cmdBadV c v => .cmdBadVer c v

/-- Raw bytes held by a sentinel attribute value. -/
def rawBytes : AttrVal → List Nat
  | .raw b => b
  | _ => []

/-- The fragment-splicing prologue of `parse_request`: when the last attribute
is the `incomplete` sentinel, prepend its bytes to the fresh chunk, free the
node and unlink it from the sequence. -/
def spliceFragment (req : WgReq) (chunk : List Nat) : WgReq × List Nat :=
  match req.attrs.getLast? with
  | some a =>
    if a.key = WGKEY_INCOMPLETE then
      ({ req with attrs := req.attrs.dropLast }, rawBytes a.value ++ chunk)
    else (req, chunk)
  | none => (req, chunk)

/-- The `while (len > 0)` loop of `parse_request`, written with explicit fuel
so the function stays structurally recursive and computable.  Each iteration
of the C loop consumes at least one byte, so `buf.length` fuel is always
enough; the fuel-exhausted branch is unreachable under that bound and
mirrors the loop exit (`return 1`). -/
def prGo : Nat → WgReq → List Nat → Int × WgReq
  | _, req, [] => (1, req)
  | 0, req, _ => (1, req)
  | fuel + 1, req, buf =>
    match parse_line buf (req.cmd == WGKEY_UNKNOWN) with
    | .done => (0, req)
    | .error e => (-e, req)
    | .cmdBadVer c v => (-EPROTONOSUPPORT, { req with cmd := c, version := v })
    | .cmdOk n c v => prGo fuel { req with cmd := c, version := v } (buf.drop n)
    | .attr n a => prGo fuel { req with attrs := req.attrs ++ [a] } (buf.drop n)

/-- The `parse_request` line loop at its canonical fuel. -/
def prLoop (req : WgReq) (buf : List Nat) : Int × WgReq := prGo buf.length req buf

/-- Translation of `parse_request` from src/common.c: reject chunks holding a
NUL byte with `-EINVAL` (before the splice, so a stashed fragment survives
that error), splice a stashed fragment in front of the chunk, then run the
line loop.  Returns 1 for "need more input", 0 for message complete, and a
negative errno on error, together with the mutated request. -/
def parse_request (req : WgReq) (buf : List Nat) : Int × WgReq :=
  if buf.contains 0 then (-EINVAL, req)
  else
    let p := spliceFragment req buf
    prLoop p.1 p.2

/-- Successive `parse_request` calls over a list of read chunks, stopping at
the first call that does not report "need more input" — exactly how
`handle_request` drives the accumulator. -/
def feedChunks (req : WgReq) : List (List Nat) → Int × WgReq
  | [] => (1, req)
  | c :: cs =>
    let p := parse_request req c
    if p.1 = 1 then feedChunks p.2 cs else p

/-- One outcome of the `read` system call: a chunk of bytes, end of stream
(0 bytes, peer disconnect), or a failure with an errno. -/
inductive ReadRes where
  | chunk (bytes : List Nat)
  | closed
  | rerr (e : Int)
deriving DecidableEq, Repr

/-- Observable outcome of `handle_request`: returned `true` or `false`
without invoking a callback, or invoked the error or success callback (the
callback result is the return value of `handle_request` in the C). -/
inductive HRes where
  | retTrue
  | retFalse
  | errorCb (req : WgReq) (code : Int)
  | successCb (req : WgReq)
deriving DecidableEq, Repr

/-- Whether the outcome invoked the error callback. -/
def calledErrorCb : HRes → Bool
  | .errorCb _ _ => true
  | _ => false

/-- Whether the outcome invoked the success callback. -/
def calledSuccessCb : HRes → Bool
  | .successCb _ => true
  | _ => false

/-- Translation of `handle_request` from src/common.c over a read oracle.
A read error other than EWOULDBLOCK/EAGAIN and a 0-byte read both return
`true` directly (only a debug log happens); EWOULDBLOCK breaks the loop and
returns `false` (an exhausted oracle means the socket stopped being readable,
the same break).  A parse error invokes the error callback with the positive
errno, completion invokes the success callback, and "need more" continues
the loop. -/
def handle_request (req : WgReq) : List ReadRes → HRes
  | [] => .retFalse
  | .rerr e :: _ => if e = EWOULDBLOCK then .retFalse else .retTrue
  | .closed :: _ => .retTrue
  | .chunk b :: rest =>
    let p := parse_request req b
    if p.1 < 0 then .errorCb p.2 (-p.1)
    else if p.1 = 0 then .successCb p.2
    else handle_request p.2 rest

/-- One outcome of the `write` system call: `n` bytes accepted (the kernel
never accepts more than requested, modelled by clamping), would-block, or a
hard error. -/
inductive WriteRes where
  | ok (n : Nat)
  | wouldBlock
  | werr
deriving DecidableEq, Repr

/-- Outcome of the write loop of `send_message`: everything written, a hard
I/O error (the C returns `true` there as well, after a debug log), or
blocked with the unwritten remainder. -/
inductive SendOutcome where
  | allSent
  | ioError
  | blocked (rem : List Nat)
deriving DecidableEq, Repr

/-- The `while (1)` write loop of `send_message`, driven by a write oracle.
An exhausted oracle is read as the socket giving no further progress, the
would-block break. -/
def sendLoop (buf : List Nat) (offset : Nat) : List WriteRes → SendOutcome
  | [] => .blocked (buf.drop offset)
  | .wouldBlock :: _ => .blocked (buf.drop offset)
  | .werr :: _ => .ioError
  | .ok n :: rest =>
    let written := min n (buf.length - offset)
    if offset + written = buf.length then .allSent
    else sendLoop buf (offset + written) rest

/-- Translation of `send_message` from src/common.c: write until done,
would-block or error.  On would-block the unwritten remainder replaces the
pending-write buffer (the C reuses the old allocation when present; the
bytes stored are the same) and `false` is returned; on completion and on a
hard error `true` is returned with the request untouched. -/
def send_message (req : WgReq) (buf : List Nat) (sock : List WriteRes) : WgReq × Bool :=
  match sendLoop buf 0 sock with
  | .allSent => (req, true)
  | .ioError => (req, true)
  | .blocked rem => ({ req with buf := some rem, buflen := rem.length }, false)

/-- Translation of `close_connection` from src/common.c: the socket is
closed, every attribute node and the pending buffer are freed (dropped in
this functional model) and each field is reset to its pre-connection value,
with `fd = -1`. -/
def close_connection (_req : WgReq) : WgReq :=
  { fd := -1, cmd := WGKEY_UNKNOWN, version := 0, attrs := [], buf := none, buflen := 0 }

/-- Modelled from the spec: a freshly initialized, pre-connection request —
all fields in their zero/unset state, no attributes, no pending buffer, no
socket. -/
def initReq : WgReq :=
  { fd := -1, cmd := WGKEY_UNKNOWN, version := 0, attrs := [], buf := none, buflen := 0 }

/-- Whether an attribute list does not end in the `incomplete` sentinel. -/
def noIncTailB (l : List WgAttr) : Bool :=
  match l.getLast? with
  | some a => a.key != WGKEY_INCOMPLETE
  | none => true

/-- Whether no attribute before the last is the `incomplete` sentinel: the
sentinel occurs at most once and only as the last element. -/
def cleanAttrsB (l : List WgAttr) : Bool :=
  l.dropLast.all (fun a => a.key != WGKEY_INCOMPLETE)

/-- Whether no attribute at all is the `incomplete` sentinel. -/
def noIncB (l : List WgAttr) : Bool :=
  l.all (fun a => a.key != WGKEY_INCOMPLETE)

/-- The reading of claim C4 for the uint32-valued keys: the value text is one
or more decimal digits (no sign, no whitespace, no trailing text) whose value
fits in 32 bits. -/
def claimU32B (s : List Nat) : Bool :=
  !s.isEmpty && s.all isDigitB && decide (digitsVal s ≤ UINT32_MAX)

/-- The reading of claim C5 for the CIDR suffix: one or more decimal digits
whose value is at most 255, with no trailing characters. -/
def claimU8B (s : List Nat) : Bool :=
  !s.isEmpty && s.all isDigitB && decide (digitsVal s ≤ 255)

/-- The uintmax_t value of a sign byte and a digit run: clamped to
`UINTMAX_MAX` on overflow, negated modulo 2^64 under a minus sign. -/
def wrapVal (sg ds : List Nat) : Nat :=
  if UINTMAX_MAX < digitsVal ds then UINTMAX_MAX
  else if sg = [45] then (2 ^ 64 - digitsVal ds) % 2 ^ 64 else digitsVal ds

/-- Spec-side (amended) description of a string fully consumed by
`strtoumax`: optional whitespace, an optional single sign byte, then one or
more digits reaching the end of the string, with `v` the wrapped value. -/
def specNumber (s : List Nat) (v : Nat) : Prop :=
  ∃ w sg ds, s = w ++ sg ++ ds ∧ w.all isSpaceB = true ∧
    (sg = [] ∨ sg = [43] ∨ sg = [45]) ∧ ds ≠ [] ∧ ds.all isDigitB = true ∧
    v = wrapVal sg ds

/-- Spec-side (amended) acceptance for the uint32-valued keys: either the
empty string (value 0) or a full `strtoumax` parse with value at most
`UINT32_MAX`. -/
def specU32 (s : List Nat) (v : Nat) : Prop :=
  (s = [] ∧ v = 0) ∨ (specNumber s v ∧ v ≤ UINT32_MAX)

/-- Spec-side (amended) acceptance for the CIDR prefix-length suffix: a full
`strtoumax` parse with value at most 255. -/
def specU8Suffix (b : List Nat) (c : Nat) : Prop :=
  specNumber b c ∧ c ≤ 255

/-! ## Theorems -/

theorem sendLoop_ok_blocked (ns : List Nat) :
    ∀ (buf : List Nat) (offset : Nat), offset + ns.sum < buf.length →
      sendLoop buf offset (ns.map WriteRes.ok ++ [WriteRes.wouldBlock]) =
        SendOutcome.blocked (buf.drop (offset + ns.sum)) := by
  induction ns with
  | nil => intro buf offset h; simp [sendLoop]
  | cons n ns ih =>
    intro buf offset h
    simp only [List.sum_cons] at h
    simp only [List.map_cons, List.cons_append, sendLoop]
    have hmin : min n (buf.length - offset) = n := Nat.min_eq_left (by omega)
    rw [hmin, if_neg (by omega)]
    simpa [List.append_eq, Nat.add_assoc] using ih buf (offset + n) (by omega)

/-- C7: a buffer only partially accepted before would-block has its unwritten
remainder saved byte-for-byte into the pending-write buffer (replacing any
previous contents), `buflen` set to the remainder length, and `send_message`
returns `false`. -/
theorem C7_partial_write_saves_remainder (req : WgReq) (buf : List Nat) (ns : List Nat)
    (h : ns.sum < buf.length) :
    send_message req buf (ns.map WriteRes.ok ++ [WriteRes.wouldBlock]) =
      ({ req with buf := some (buf.drop ns.sum), buflen := buf.length - ns.sum }, false) := by
  unfold send_message
  rw [sendLoop_ok_blocked ns buf 0 (by omega), Nat.zero_add]
  simp [List.length_drop]

/-- Witness for C7 at a concrete five-byte buffer, a socket accepting two
bytes, and a request already holding an older pending buffer. -/
theorem C7_witness : ([2] : List Nat).sum < (strBytes "hello").length ∧
    send_message { initReq with buf := some [9, 9, 9] } (strBytes "hello")
        (([2] : List Nat).map WriteRes.ok ++ [WriteRes.wouldBlock]) =
      ({ { initReq with buf := some [9, 9, 9] } with
          buf := some ((strBytes "hello").drop ([2] : List Nat).sum),
          buflen := (strBytes "hello").length - ([2] : List Nat).sum }, false) :=
  ⟨by decide, C7_partial_write_saves_remainder _ _ _ (by decide)⟩

/-- Counterexample to C2 as stated: a 0-byte read (peer disconnect) and a
hard read error (ECONNRESET = 104) both make `handle_request` return `true`
directly; the error callback is not invoked for either. -/
theorem C2_counterexample :
    handle_request initReq [ReadRes.closed] = HRes.retTrue ∧
    handle_request initReq [ReadRes.rerr 104] = HRes.retTrue ∧
    calledErrorCb (handle_request initReq [ReadRes.closed]) = false ∧
    calledErrorCb (handle_request initReq [ReadRes.rerr 104]) = false := by
  decide

/-- C2 (amended): on a 0-byte read or a read failure other than would-block,
`handle_request` stops and returns `true` (telling the caller to tear the
connection down) without invoking the error callback; transport errors are
not surfaced to either callback. -/
theorem C2_transport_errors_no_callback (req : WgReq) (rest : List ReadRes) (e : Int)
    (h : e ≠ EWOULDBLOCK) :
    handle_request req (ReadRes.rerr e :: rest) = HRes.retTrue ∧
    handle_request req (ReadRes.closed :: rest) = HRes.retTrue := by
  constructor
  · simp [handle_request, h]
  · rfl

/-- Witness for the amended C2 at a concrete ECONNRESET read error. -/
theorem C2_witness : (104 : Int) ≠ EWOULDBLOCK ∧
    (handle_request initReq [ReadRes.rerr 104] = HRes.retTrue ∧
     handle_request initReq [ReadRes.closed] = HRes.retTrue) :=
  ⟨by decide, C2_transport_errors_no_callback initReq [] 104 (by decide)⟩

/-- C8: `close_connection` frees the whole attribute sequence and the pending
buffer (dropped in the functional model) and leaves every field of the
request equal, field for field, to the freshly initialized pre-connection
request. -/
theorem C8_close_connection_resets (req : WgReq) : close_connection req = initReq := rfl

/-- Counterexample to C4 as stated: the decoder accepts `"+120"` under the
`leasetime` key even though that string is not a plain base-10 unsigned
integer (it carries a sign), so acceptance is not equivalent to the claimed
digits-only condition. -/
theorem C4_counterexample :
    ¬ (((parse_value WGKEY_LEASETIME (strBytes "+120")).isSome = true) ↔
       claimU32B (strBytes "+120") = true) := by
  decide

/-- Counterexample to C5 as stated: `"10.0.0.1/+24"` decodes under a CIDR key
even though its suffix `"+24"` is not a plain unsigned integer, so the
claimed equivalence fails. -/
theorem C5_counterexample :
    ¬ (((parse_ip_cidr AF_INET (strBytes "10.0.0.1/+24")).isSome = true) ↔
       ((inet_pton AF_INET (strBytes "10.0.0.1")).isSome = true ∧
        claimU8B (strBytes "+24") = true)) := by
  decide

theorem findByte_some_lt {c : Nat} {l : List Nat} {k : Nat}
    (h : findByte c l = some k) : k < l.length := by
  induction l generalizing k with
  | nil => simp [findByte] at h
  | cons b bs ih =>
    simp only [findByte] at h
    by_cases hb : b = c
    · rw [if_pos hb] at h
      cases h
      simp
    · rw [if_neg hb] at h
      obtain ⟨j, hj, rfl⟩ := Option.map_eq_some'.mp h
      have := ih hj
      simp only [List.length_cons]
      omega


theorem findByte_append_some {c : Nat} {l d : List Nat} {k : Nat}
    (h : findByte c l = some k) : findByte c (l ++ d) = some k := by
  induction l generalizing k with
  | nil => simp [findByte] at h
  | cons b bs ih =>
    simp only [findByte, List.cons_append, List.append_eq] at h ⊢
    by_cases hb : b = c
    · rw [if_pos hb] at h ⊢
      exact h
    · rw [if_neg hb] at h ⊢
      obtain ⟨j, hj, rfl⟩ := Option.map_eq_some'.mp h
      rw [ih hj]
      rfl

theorem parse_line_attr_bounds {buf : List Nat} {ctx : Bool} {n : Nat} {a : WgAttr}
    (hb : buf ≠ []) (h : parse_line buf ctx = .attr n a) : 0 < n ∧ n ≤ buf.length := by
  unfold parse_line at h
  split at h
  · split at h
    · simp at h
    · simp only [PLRes.attr.injEq] at h
      obtain ⟨rfl, -⟩ := h
      exact ⟨List.length_pos.mpr hb, Nat.le_refl _⟩
  · simp at h
  · rename_i k hf
    have hlt := findByte_some_lt hf
    rw [List.length_take] at hlt
    split at h
    · simp at h
    · simp only [PLRes.attr.injEq] at h
      obtain ⟨rfl, -⟩ := h
      constructor <;> omega
    · simp at h
    · simp at h

theorem parse_line_cmdOk_bounds {buf : List Nat} {ctx : Bool} {n c v : Nat}
    (h : parse_line buf ctx = .cmdOk n c v) : 0 < n ∧ n ≤ buf.length := by
  unfold parse_line at h
  split at h
  · split at h <;> simp at h
  · simp at h
  · rename_i k hf
    have hlt := findByte_some_lt hf
    rw [List.length_take] at hlt
    split at h
    · simp at h
    · simp at h
    · simp only [PLRes.cmdOk.injEq] at h
      obtain ⟨rfl, -, -⟩ := h
      constructor <;> omega
    · simp at h

theorem prGo_fuel_eq : ∀ (fuel : Nat) (req : WgReq) (buf : List Nat),
    buf.length ≤ fuel → prGo fuel req buf = prLoop req buf := by
  intro fuel
  induction fuel using Nat.strong_induction_on with
  | _ fuel ih =>
    intro req buf hle
    cases buf with
    | nil => cases fuel <;> rfl
    | cons b bs =>
      cases fuel with
      | zero => simp at hle
      | succ f =>
        have hbs : bs.length ≤ f := by simpa using hle
        show prGo (f + 1) req (b :: bs) = prGo (bs.length + 1) req (b :: bs)
        cases hpl : parse_line (b :: bs) (req.cmd == WGKEY_UNKNOWN) with
        | done => simp only [prGo, hpl]
        | error e => simp only [prGo, hpl]
        | cmdBadVer c v => simp only [prGo, hpl]
        | cmdOk n c v =>
          obtain ⟨hp, hub⟩ := parse_line_cmdOk_bounds hpl
          simp only [prGo, hpl]
          have h1 : ((b :: bs).drop n).length ≤ f := by
            simp only [List.length_drop, List.length_cons]
            omega
          have h2 : ((b :: bs).drop n).length ≤ bs.length := by
            simp only [List.length_drop, List.length_cons]
            omega
          rw [ih f (by omega) _ _ h1, ih bs.length (by omega) _ _ h2]
        | attr n a =>
          obtain ⟨hp, hub⟩ := parse_line_attr_bounds (List.cons_ne_nil b bs) hpl
          simp only [prGo, hpl]
          have h1 : ((b :: bs).drop n).length ≤ f := by
            simp only [List.length_drop, List.length_cons]
            omega
          have h2 : ((b :: bs).drop n).length ≤ bs.length := by
            simp only [List.length_drop, List.length_cons]
            omega
          rw [ih f (by omega) _ _ h1, ih bs.length (by omega) _ _ h2]

theorem prLoop_nil (req : WgReq) : prLoop req [] = (1, req) := rfl

theorem prLoop_step (req : WgReq) (buf : List Nat) (hb : buf ≠ []) :
    prLoop req buf =
      match parse_line buf (req.cmd == WGKEY_UNKNOWN) with
      | .done => (0, req)
      | .error e => (-e, req)
      | .cmdBadVer c v => (-EPROTONOSUPPORT, { req with cmd := c, version := v })
      | .cmdOk n c v => prLoop { req with cmd := c, version := v } (buf.drop n)
      | .attr n a => prLoop { req with attrs := req.attrs ++ [a] } (buf.drop n) := by
  obtain ⟨b, bs, rfl⟩ := List.exists_cons_of_ne_nil hb
  show prGo (bs.length + 1) req (b :: bs) = _
  cases hpl : parse_line (b :: bs) (req.cmd == WGKEY_UNKNOWN) with
  | done => simp only [prGo, hpl]
  | error e => simp only [prGo, hpl]
  | cmdBadVer c v => simp only [prGo, hpl]
  | cmdOk n c v =>
    obtain ⟨hp, hub⟩ := parse_line_cmdOk_bounds hpl
    simp only [prGo, hpl]
    exact prGo_fuel_eq bs.length _ _
      (by simp only [List.length_drop, List.length_cons]; omega)
  | attr n a =>
    obtain ⟨hp, hub⟩ := parse_line_attr_bounds (List.cons_ne_nil b bs) hpl
    simp only [prGo, hpl]
    exact prGo_fuel_eq bs.length _ _
      (by simp only [List.length_drop, List.length_cons]; omega)

theorem prLoop_attr_step (req : WgReq) (buf : List Nat) (n : Nat) (a : WgAttr)
    (hcmd : req.cmd ≠ WGKEY_UNKNOWN) (hb : buf ≠ [])
    (h : parse_line buf false = .attr n a) :
    prLoop req buf = prLoop { req with attrs := req.attrs ++ [a] } (buf.drop n) := by
  rw [prLoop_step req buf hb,
    show (req.cmd == WGKEY_UNKNOWN) = false from beq_eq_false_iff_ne.mpr hcmd, h]

theorem prLoop_error_step_attr (req : WgReq) (buf : List Nat) (e : Int)
    (hcmd : req.cmd ≠ WGKEY_UNKNOWN) (hb : buf ≠ [])
    (h : parse_line buf false = .error e) :
    prLoop req buf = (-e, req) := by
  rw [prLoop_step req buf hb,
    show (req.cmd == WGKEY_UNKNOWN) = false from beq_eq_false_iff_ne.mpr hcmd, h]

theorem prLoop_done_step_attr (req : WgReq) (buf : List Nat)
    (hcmd : req.cmd ≠ WGKEY_UNKNOWN) (hb : buf ≠ [])
    (h : parse_line buf false = .done) :
    prLoop req buf = (0, req) := by
  rw [prLoop_step req buf hb,
    show (req.cmd == WGKEY_UNKNOWN) = false from beq_eq_false_iff_ne.mpr hcmd, h]

theorem prLoop_cmdOk_step (req : WgReq) (buf : List Nat) (n c v : Nat)
    (hcmd : req.cmd = WGKEY_UNKNOWN) (hb : buf ≠ [])
    (h : parse_line buf true = .cmdOk n c v) :
    prLoop req buf = prLoop { req with cmd := c, version := v } (buf.drop n) := by
  rw [prLoop_step req buf hb, show (req.cmd == WGKEY_UNKNOWN) = true by simp [hcmd], h]

theorem prLoop_cmdBadVer_step (req : WgReq) (buf : List Nat) (c v : Nat)
    (hcmd : req.cmd = WGKEY_UNKNOWN) (hb : buf ≠ [])
    (h : parse_line buf true = .cmdBadVer c v) :
    prLoop req buf = (-EPROTONOSUPPORT, { req with cmd := c, version := v }) := by
  rw [prLoop_step req buf hb, show (req.cmd == WGKEY_UNKNOWN) = true by simp [hcmd], h]

theorem prLoop_error_step_cmd (req : WgReq) (buf : List Nat) (e : Int)
    (hcmd : req.cmd = WGKEY_UNKNOWN) (hb : buf ≠ [])
    (h : parse_line buf true = .error e) :
    prLoop req buf = (-e, req) := by
  rw [prLoop_step req buf hb, show (req.cmd == WGKEY_UNKNOWN) = true by simp [hcmd], h]

theorem spliceFragment_noop (req : WgReq) (c : List Nat)
    (h : noIncTailB req.attrs = true) : spliceFragment req c = (req, c) := by
  unfold spliceFragment
  unfold noIncTailB at h
  cases hl : req.attrs.getLast? with
  | none => rfl
  | some a =>
    rw [hl] at h
    simp only [bne_iff_ne, ne_eq] at h
    simp [h]

theorem parse_request_clean (req : WgReq) (buf : List Nat)
    (h0 : buf.contains 0 = false) (h1 : noIncTailB req.attrs = true) :
    parse_request req buf = prLoop req buf := by
  unfold parse_request
  rw [h0]
  simp [spliceFragment_noop req buf h1]

/-- Counterexample to C3 as stated: once the command is set, the
order-violating attribute line `request=1` and the unknown-name line
`bogus=1` are both rejected with the same code `-ENOENT`, so the claimed
distinguishability between the two rejections does not exist. -/
theorem C3_counterexample :
    (parse_request { initReq with cmd := WGKEY_REQUEST, version := 1 }
        (strBytes "request=1\n")).1 = -ENOENT ∧
    (parse_request { initReq with cmd := WGKEY_REQUEST, version := 1 }
        (strBytes "bogus=1\n")).1 = -ENOENT := by
  decide

/-- C3 (amended): after the command is set, an attribute line whose key is
not strictly past the `endcmd` boundary marker is rejected — but with
`-ENOENT`, the very code used for an unknown command or attribute name, so
the two conditions are not distinguishable by code. -/
theorem C3_order_violation_enoent (req : WgReq) (name : List Nat)
    (hcmd : req.cmd ≠ WGKEY_UNKNOWN) (hni : noIncTailB req.attrs = true)
    (hname : name = strBytes "request" ∨ name = strBytes "endcmd") :
    (parse_request req (name ++ [61, 49, 10])).1 = -ENOENT ∧
    (parse_request req (strBytes "bogus" ++ [61, 49, 10])).1 = -ENOENT := by
  have hbogus : (parse_request req (strBytes "bogus" ++ [61, 49, 10])).1 = -ENOENT := by
    rw [parse_request_clean _ _ (by decide) hni,
      prLoop_error_step_attr req _ ENOENT hcmd (by decide) (by decide)]
  rcases hname with rfl | rfl <;>
    exact ⟨by
      rw [parse_request_clean _ _ (by decide) hni,
        prLoop_error_step_attr req _ ENOENT hcmd (by decide) (by decide)], hbogus⟩

/-- Witness for the amended C3 with the command key `request` as the
violating attribute name, on a request whose command is already set. -/
theorem C3_witness :
    ({ initReq with cmd := WGKEY_REQUEST, version := 1 } : WgReq).cmd ≠ WGKEY_UNKNOWN ∧
    noIncTailB ({ initReq with cmd := WGKEY_REQUEST, version := 1 } : WgReq).attrs = true ∧
    ((parse_request { initReq with cmd := WGKEY_REQUEST, version := 1 }
        (strBytes "request" ++ [61, 49, 10])).1 = -ENOENT ∧
     (parse_request { initReq with cmd := WGKEY_REQUEST, version := 1 }
        (strBytes "bogus" ++ [61, 49, 10])).1 = -ENOENT) :=
  ⟨by decide, by decide,
    C3_order_violation_enoent _ _ (by decide) (by decide) (Or.inl rfl)⟩

/-- C10: an error return from `parse_request` does not roll the request
back: an attribute decoded from an earlier line of the same chunk stays
appended when a later line fails, and an unsupported version on the command
line leaves `cmd` and `version` set to the parsed values alongside the
`-EPROTONOSUPPORT` error. -/
theorem C10_no_rollback :
    (∀ req : WgReq, req.cmd ≠ WGKEY_UNKNOWN → noIncTailB req.attrs = true →
      parse_request req (strBytes "leasetime=120\nbogus=1\n") =
        (-ENOENT, { req with attrs := req.attrs ++ [⟨WGKEY_LEASETIME, 4, AttrVal.uint32 120⟩] })) ∧
    (∀ req : WgReq, req.cmd = WGKEY_UNKNOWN → noIncTailB req.attrs = true →
      parse_request req (strBytes "request=2\n") =
        (-EPROTONOSUPPORT, { req with cmd := WGKEY_REQUEST, version := 2 })) := by
  constructor
  · intro req hcmd hni
    rw [parse_request_clean _ _ (by decide) hni,
      prLoop_attr_step req _ 14 ⟨WGKEY_LEASETIME, 4, AttrVal.uint32 120⟩ hcmd (by decide) (by decide)]
    rw [prLoop_error_step_attr
      { req with attrs := req.attrs ++ [⟨WGKEY_LEASETIME, 4, AttrVal.uint32 120⟩] }
      ((strBytes "leasetime=120\nbogus=1\n").drop 14) ENOENT hcmd (by decide) (by decide)]
  · intro req hcmd hni
    rw [parse_request_clean _ _ (by decide) hni,
      prLoop_cmdBadVer_step req _ WGKEY_REQUEST 2 hcmd (by decide) (by decide)]

/-- Witness for C10 on a request with the command set (first part) and on
the fresh request (second part). -/
theorem C10_witness :
    parse_request { initReq with cmd := WGKEY_REQUEST, version := 1 }
        (strBytes "leasetime=120\nbogus=1\n") =
      (-ENOENT, { ({ initReq with cmd := WGKEY_REQUEST, version := 1 } : WgReq) with
          attrs := ({ initReq with cmd := WGKEY_REQUEST, version := 1 } : WgReq).attrs ++
            [⟨WGKEY_LEASETIME, 4, AttrVal.uint32 120⟩] }) ∧
    parse_request initReq (strBytes "request=2\n") =
      (-EPROTONOSUPPORT, { initReq with cmd := WGKEY_REQUEST, version := 2 }) :=
  ⟨C10_no_rollback.1 _ (by decide) (by decide), C10_no_rollback.2 initReq rfl (by decide)⟩

theorem all_takeWhile (p : Nat → Bool) (l : List Nat) :
    (l.takeWhile p).all p = true := by
  induction l with
  | nil => rfl
  | cons b bs ih =>
    by_cases hp : p b = true
    · simp [List.takeWhile_cons, hp, ih]
    · simp [List.takeWhile_cons, Bool.eq_false_iff.mpr hp]

theorem takeWhile_eq_self_of_all {p : Nat → Bool} {l : List Nat}
    (h : l.all p = true) : l.takeWhile p = l := by
  induction l with
  | nil => rfl
  | cons b bs ih =>
    simp only [List.all_cons, Bool.and_eq_true] at h
    simp [List.takeWhile_cons, h.1, ih h.2]

theorem dropWhile_eq_nil_of_all {p : Nat → Bool} {l : List Nat}
    (h : l.all p = true) : l.dropWhile p = [] := by
  induction l with
  | nil => rfl
  | cons b bs ih =>
    simp only [List.all_cons, Bool.and_eq_true] at h
    simp [List.dropWhile_cons, h.1, ih h.2]

theorem dropWhile_append_of_all {p : Nat → Bool} {w : List Nat} (t : List Nat)
    (hw : w.all p = true) : (w ++ t).dropWhile p = t.dropWhile p := by
  induction w with
  | nil => rfl
  | cons b bs ih =>
    simp only [List.all_cons, Bool.and_eq_true] at hw
    simp [List.dropWhile_cons, hw.1, ih hw.2]

theorem dropWhile_cons_of_neg {p : Nat → Bool} {b : Nat} (t : List Nat)
    (h : p b = false) : (b :: t).dropWhile p = b :: t := by
  simp [List.dropWhile_cons, h]

theorem isDigit_not_isSpace {b : Nat} (h : isDigitB b = true) : isSpaceB b = false := by
  simp only [isDigitB, decide_eq_true_eq] at h
  simp only [isSpaceB, Bool.decide_or, Bool.or_eq_false_iff, decide_eq_false_iff_not]
  omega

theorem isDigit_ne_signs {b : Nat} (h : isDigitB b = true) : b ≠ 45 ∧ b ≠ 43 := by
  simp only [isDigitB, decide_eq_true_eq] at h
  omega

theorem strtoumaxDigits_eq_some_nil (neg : Bool) (s : List Nat) (v : Nat) :
    strtoumaxDigits neg s = some (v, []) ↔
      s ≠ [] ∧ s.all isDigitB = true ∧
        v = (if UINTMAX_MAX < digitsVal s then UINTMAX_MAX
             else if neg then (2 ^ 64 - digitsVal s) % 2 ^ 64 else digitsVal s) := by
  by_cases hds : s.takeWhile isDigitB = []
  · simp only [strtoumaxDigits, if_pos hds]
    constructor
    · intro h
      cases h
    · rintro ⟨hne, hall, -⟩
      rw [takeWhile_eq_self_of_all hall] at hds
      exact absurd hds hne
  · simp only [strtoumaxDigits, if_neg hds]
    constructor
    · intro h
      simp only [Option.some.injEq, Prod.mk.injEq] at h
      obtain ⟨hv, hrest⟩ := h
      have hall : s.all isDigitB = true := by
        have happ := List.takeWhile_append_dropWhile (p := isDigitB) (l := s)
        rw [hrest, List.append_nil] at happ
        rw [← happ]
        exact all_takeWhile _ _
      have hts := takeWhile_eq_self_of_all hall
      rw [hts] at hv
      refine ⟨?_, hall, hv.symm⟩
      intro hnil
      exact hds (by rw [hnil]; rfl)
    · rintro ⟨hne, hall, rfl⟩
      rw [takeWhile_eq_self_of_all hall, dropWhile_eq_nil_of_all hall]

theorem strtoumax_some_nil_iff (s : List Nat) (v : Nat) :
    strtoumax10 s = some (v, []) ↔ specNumber s v := by
  unfold specNumber
  constructor
  · intro h
    unfold strtoumax10 at h
    cases hdw : s.dropWhile isSpaceB with
    | nil =>
      rw [hdw] at h
      simp at h
    | cons b r =>
      rw [hdw] at h
      dsimp only at h
      have hs : s = s.takeWhile isSpaceB ++ (b :: r) := by
        rw [← hdw, List.takeWhile_append_dropWhile]
      have hw := all_takeWhile isSpaceB s
      by_cases h45 : b = 45
      · subst h45
        rw [if_pos rfl] at h
        obtain ⟨hne, hall, hv⟩ := (strtoumaxDigits_eq_some_nil true r v).mp h
        exact ⟨s.takeWhile isSpaceB, [45], r, by simpa using hs, hw,
          Or.inr (Or.inr rfl), hne, hall, by simp [wrapVal, hv]⟩
      · rw [if_neg h45] at h
        by_cases h43 : b = 43
        · subst h43
          rw [if_pos rfl] at h
          obtain ⟨hne, hall, hv⟩ := (strtoumaxDigits_eq_some_nil false r v).mp h
          exact ⟨s.takeWhile isSpaceB, [43], r, by simpa using hs, hw,
            Or.inr (Or.inl rfl), hne, hall, by simp [wrapVal, hv]⟩
        · rw [if_neg h43] at h
          obtain ⟨hne, hall, hv⟩ := (strtoumaxDigits_eq_some_nil false (b :: r) v).mp h
          exact ⟨s.takeWhile isSpaceB, [], b :: r, by simpa using hs, hw,
            Or.inl rfl, hne, hall, by simp [wrapVal, hv]⟩
  · rintro ⟨w, sg, ds, rfl, hw, hsg, hne, hall, rfl⟩
    unfold strtoumax10
    have hstep : (w ++ sg ++ ds).dropWhile isSpaceB = sg ++ ds := by
      rw [List.append_assoc, dropWhile_append_of_all _ hw]
      rcases hsg with rfl | rfl | rfl
      · simp only [List.nil_append]
        obtain ⟨d, ds0, rfl⟩ := List.exists_cons_of_ne_nil hne
        have hd : isDigitB d = true := by
          simp only [List.all_cons, Bool.and_eq_true] at hall
          exact hall.1
        exact dropWhile_cons_of_neg _ (isDigit_not_isSpace hd)
      · exact dropWhile_cons_of_neg _ (by decide)
      · exact dropWhile_cons_of_neg _ (by decide)
    rw [hstep]
    rcases hsg with rfl | rfl | rfl
    · obtain ⟨d, ds0, rfl⟩ := List.exists_cons_of_ne_nil hne
      dsimp only [List.nil_append]
      have hd : isDigitB d = true := by
        simp only [List.all_cons, Bool.and_eq_true] at hall
        exact hall.1
      obtain ⟨h45, h43⟩ := isDigit_ne_signs hd
      rw [if_neg h45, if_neg h43,
        (strtoumaxDigits_eq_some_nil false (d :: ds0) (wrapVal [] (d :: ds0))).mpr
          ⟨by simp, hall, by simp [wrapVal]⟩]
    · dsimp only [List.cons_append, List.nil_append]
      rw [if_neg (by decide), if_pos rfl,
        (strtoumaxDigits_eq_some_nil false ds (wrapVal [43] ds)).mpr
          ⟨hne, hall, by simp [wrapVal]⟩]
    · dsimp only [List.cons_append, List.nil_append]
      rw [if_pos rfl,
        (strtoumaxDigits_eq_some_nil true ds (wrapVal [45] ds)).mpr
          ⟨hne, hall, by simp [wrapVal]⟩]

/-- C4 (amended): for the timestamp, duration and error-number keys the
decoder accepts exactly the strings fully consumed by `strtoumax` — optional
leading whitespace, an optional single sign, then at least one digit to the
end of the string, with the wrapped 64-bit value at most `UINT32_MAX` — plus
the empty string, which decodes to 0; everything else fails. -/
theorem C4_amended_uint32_decode (key : Nat) (s : List Nat) (a : WgAttr)
    (hk : key = WGKEY_LEASESTART ∨ key = WGKEY_LEASETIME ∨ key = WGKEY_ERRNO)
    (hz : s.contains 0 = false) :
    (parse_value key s = some a ↔
      ∃ v, specU32 s v ∧ a = ⟨key, 4, AttrVal.uint32 v⟩) := by
  have hk4 : ¬ key = WGKEY_IPV4 := by rcases hk with rfl | rfl | rfl <;> decide
  have hk6 : ¬ key = WGKEY_IPV6 := by rcases hk with rfl | rfl | rfl <;> decide
  unfold parse_value
  rw [if_neg hk4, if_neg hk6, if_pos hk]
  cases hm : strtoumax10 s with
  | none =>
    dsimp only
    constructor
    · intro h
      by_cases hs : s = []
      · rw [if_pos hs] at h
        injection h with h
        exact ⟨0, Or.inl ⟨hs, rfl⟩, h.symm⟩
      · rw [if_neg hs] at h
        cases h
    · rintro ⟨v, hspec, rfl⟩
      rcases hspec with ⟨rfl, rfl⟩ | ⟨hnum, hle⟩
      · simp
      · have h2 : strtoumax10 s = some (v, []) := (strtoumax_some_nil_iff s v).mpr hnum
        rw [hm] at h2
        cases h2
  | some p =>
    obtain ⟨v0, rest⟩ := p
    dsimp only
    constructor
    · intro h
      by_cases hc : UINT32_MAX < v0 ∨ rest ≠ []
      · rw [if_pos hc] at h
        cases h
      · rw [if_neg hc] at h
        push_neg at hc
        obtain ⟨hle, hrest⟩ := hc
        subst hrest
        injection h with h
        exact ⟨v0, Or.inr ⟨(strtoumax_some_nil_iff s v0).mp hm, hle⟩, h.symm⟩
    · rintro ⟨v, hspec, rfl⟩
      rcases hspec with ⟨rfl, rfl⟩ | ⟨hnum, hle⟩
      · rw [show strtoumax10 [] = none from rfl] at hm
        cases hm
      · have h2 : strtoumax10 s = some (v, []) := (strtoumax_some_nil_iff s v).mpr hnum
        rw [hm] at h2
        injection h2 with h2
        injection h2 with h2a h2b
        subst h2a
        subst h2b
        have hno : ¬ (UINT32_MAX < v0 ∨ ([] : List Nat) ≠ []) := by
          push_neg
          exact ⟨hle, rfl⟩
        rw [if_neg hno]

/-- Witness for the amended C4 at the signed string `+120` under the
`leasetime` key. -/
theorem C4_witness :
    (WGKEY_LEASETIME = WGKEY_LEASESTART ∨ WGKEY_LEASETIME = WGKEY_LEASETIME ∨
      WGKEY_LEASETIME = WGKEY_ERRNO) ∧
    (strBytes "+120").contains 0 = false ∧
    (parse_value WGKEY_LEASETIME (strBytes "+120") =
        some ⟨WGKEY_LEASETIME, 4, AttrVal.uint32 120⟩ ↔
      ∃ v, specU32 (strBytes "+120") v ∧
        (⟨WGKEY_LEASETIME, 4, AttrVal.uint32 120⟩ : WgAttr) =
          ⟨WGKEY_LEASETIME, 4, AttrVal.uint32 v⟩) :=
  ⟨Or.inr (Or.inl rfl), by decide,
    C4_amended_uint32_decode _ _ _ (Or.inr (Or.inl rfl)) (by decide)⟩

theorem splitFirst_eq_some_iff (c : Nat) : ∀ (l a b : List Nat),
    splitFirst c l = some (a, b) ↔ (l = a ++ c :: b ∧ c ∉ a) := by
  intro l
  induction l with
  | nil =>
    intro a b
    simp only [splitFirst]
    constructor
    · intro h
      cases h
    · rintro ⟨h, -⟩
      exact absurd h (by cases a <;> simp)
  | cons x xs ih =>
    intro a b
    simp only [splitFirst]
    by_cases hx : x = c
    · subst hx
      rw [if_pos rfl]
      constructor
      · intro h
        injection h with h
        injection h with h1 h2
        subst h1
        subst h2
        exact ⟨rfl, by simp⟩
      · rintro ⟨h, hc⟩
        cases a with
        | nil =>
          simp only [List.nil_append] at h
          injection h with h1 h2
          subst h2
          rfl
        | cons a0 a1 =>
          simp only [List.cons_append] at h
          injection h with h1 h2
          refine absurd ?_ hc
          rw [h1]
          exact List.mem_cons_self a0 a1
    · rw [if_neg hx]
      constructor
      · intro h
        obtain ⟨⟨a2, b2⟩, hsp, hmap⟩ := Option.map_eq_some'.mp h
        dsimp only at hmap
        injection hmap with h1 h2
        subst h1
        subst h2
        obtain ⟨hl, hcn⟩ := (ih _ _).mp hsp
        constructor
        · rw [List.cons_append, hl]
        · intro hm
          rcases List.mem_cons.mp hm with h1 | h2
          · exact hx h1.symm
          · exact hcn h2
      · rintro ⟨hl, hcn⟩
        cases a with
        | nil =>
          simp only [List.nil_append] at hl
          injection hl with h1 h2
          exact absurd h1 hx
        | cons a0 a1 =>
          simp only [List.cons_append] at hl
          injection hl with h1 h2
          subst h1
          have hcn1 : c ∉ a1 := fun hm => hcn (List.mem_cons_of_mem _ hm)
          rw [(ih a1 b).mpr ⟨h2, hcn1⟩]
          rfl

/-- C5 (amended): under a CIDR key the empty value decodes to the all-zero
address with prefix 0; a value containing `/` decodes exactly when the part
before the first `/` parses under the preset family and the suffix is fully
consumed by `strtoumax` (whitespace and a single sign allowed, at least one
digit, nothing trailing) with wrapped value at most 255; a non-empty value
without `/` always fails. -/
theorem C5_amended_cidr_decode (fam : Nat) (s : List Nat) (ip : WgIp)
    (_hfam : fam = AF_INET ∨ fam = AF_INET6) (hz : s.contains 0 = false) :
    (parse_ip_cidr fam s = some ip ↔
      (s = [] ∧ ip = ⟨fam, List.replicate (if fam = AF_INET then 4 else 16) 0, 0⟩) ∨
      (∃ a b, s = a ++ 47 :: b ∧ 47 ∉ a ∧ inet_pton fam a = some ip.addr ∧
        ip.family = fam ∧ specU8Suffix b ip.cidr)) := by
  obtain ⟨ipf, ipa, ipc⟩ := ip
  unfold parse_ip_cidr
  by_cases hs : s = []
  · subst hs
    rw [if_pos rfl]
    constructor
    · intro h
      injection h with h
      exact Or.inl ⟨rfl, h.symm⟩
    · rintro (⟨-, hip⟩ | ⟨a, b, habs, -⟩)
      · rw [hip]
      · exact absurd habs (by cases a <;> simp)
  · rw [if_neg hs]
    cases hsp : splitFirst 47 s with
    | none =>
      dsimp only
      constructor
      · intro h
        cases h
      · rintro (⟨hnil, -⟩ | ⟨a, b, hab, hna, -⟩)
        · exact absurd hnil hs
        · have h2 := (splitFirst_eq_some_iff 47 s a b).mpr ⟨hab, hna⟩
          rw [hsp] at h2
          cases h2
    | some p =>
      obtain ⟨a0, b0⟩ := p
      dsimp only
      obtain ⟨hab0, hna0⟩ := (splitFirst_eq_some_iff 47 s a0 b0).mp hsp
      have huniq : ∀ a b, s = a ++ 47 :: b → 47 ∉ a → a = a0 ∧ b = b0 := by
        intro a b hab hna
        have h2 := (splitFirst_eq_some_iff 47 s a b).mpr ⟨hab, hna⟩
        rw [hsp] at h2
        injection h2 with h2
        injection h2 with h2a h2b
        exact ⟨h2a.symm, h2b.symm⟩
      cases hpt : inet_pton fam a0 with
      | none =>
        dsimp only
        constructor
        · intro h
          cases h
        · rintro (⟨hnil, -⟩ | ⟨a, b, hab, hna, hinet, -⟩)
          · exact absurd hnil hs
          · obtain ⟨rfl, rfl⟩ := huniq a b hab hna
            rw [hpt] at hinet
            cases hinet
      | some addr =>
        dsimp only
        cases hnum : strtoumax10 b0 with
        | none =>
          dsimp only
          constructor
          · intro h
            cases h
          · rintro (⟨hnil, -⟩ | ⟨a, b, hab, hna, hinet, hfam, hsuf⟩)
            · exact absurd hnil hs
            · obtain ⟨rfl, rfl⟩ := huniq a b hab hna
              have h2 := (strtoumax_some_nil_iff _ ipc).mpr hsuf.1
              rw [hnum] at h2
              cases h2
        | some q =>
          obtain ⟨v0, rest⟩ := q
          dsimp only
          constructor
          · intro h
            by_cases hc : 255 < v0 ∨ rest ≠ []
            · rw [if_pos hc] at h
              cases h
            · rw [if_neg hc] at h
              push_neg at hc
              obtain ⟨hle, hrest⟩ := hc
              subst hrest
              injection h with h
              injection h with hf1 hf2 hf3
              refine Or.inr ⟨a0, b0, hab0, hna0, ?_, hf1.symm, ?_, ?_⟩
              · rw [hpt, hf2]
              · exact hf3 ▸ (strtoumax_some_nil_iff b0 v0).mp hnum
              · rw [← hf3]
                exact hle
          · rintro (⟨hnil, -⟩ | ⟨a, b, hab, hna, hinet, hfam, hsuf⟩)
            · exact absurd hnil hs
            · obtain ⟨rfl, rfl⟩ := huniq a b hab hna
              have h2 := (strtoumax_some_nil_iff _ ipc).mpr hsuf.1
              rw [hnum] at h2
              injection h2 with h2
              injection h2 with h2a h2b
              subst h2b
              have hle : v0 ≤ 255 := by
                rw [h2a]
                exact hsuf.2
              rw [if_neg (show ¬ (255 < v0 ∨ ([] : List Nat) ≠ []) by
                push_neg
                exact ⟨hle, rfl⟩)]
              rw [hpt] at hinet
              injection hinet with hinet
              rw [hinet, hfam, h2a]

/-- Witness for the amended C5 at the value `10.0.0.1/+24` under the IPv4
family, which decodes to 10.0.0.1 with prefix length 24. -/
theorem C5_witness :
    (AF_INET = AF_INET ∨ AF_INET = AF_INET6) ∧
    (strBytes "10.0.0.1/+24").contains 0 = false ∧
    (parse_ip_cidr AF_INET (strBytes "10.0.0.1/+24") =
        some ⟨AF_INET, [10, 0, 0, 1], 24⟩ ↔
      (strBytes "10.0.0.1/+24" = [] ∧
        (⟨AF_INET, [10, 0, 0, 1], 24⟩ : WgIp) =
          ⟨AF_INET, List.replicate (if AF_INET = AF_INET then 4 else 16) 0, 0⟩) ∨
      (∃ a b, strBytes "10.0.0.1/+24" = a ++ 47 :: b ∧ 47 ∉ a ∧
        inet_pton AF_INET a = some (⟨AF_INET, [10, 0, 0, 1], 24⟩ : WgIp).addr ∧
        (⟨AF_INET, [10, 0, 0, 1], 24⟩ : WgIp).family = AF_INET ∧
        specU8Suffix b (⟨AF_INET, [10, 0, 0, 1], 24⟩ : WgIp).cidr)) :=
  ⟨Or.inl rfl, by decide, C5_amended_cidr_decode _ _ _ (Or.inl rfl) (by decide)⟩

theorem parse_value_key {key : Nat} {v : List Nat} {a : WgAttr}
    (h : parse_value key v = some a) : a.key = key := by
  unfold parse_value at h
  by_cases h4 : key = WGKEY_IPV4
  · rw [if_pos h4] at h
    obtain ⟨ip, -, rfl⟩ := Option.map_eq_some'.mp h
    rfl
  · rw [if_neg h4] at h
    by_cases h6 : key = WGKEY_IPV6
    · rw [if_pos h6] at h
      obtain ⟨ip, -, rfl⟩ := Option.map_eq_some'.mp h
      rfl
    · rw [if_neg h6] at h
      by_cases hu : key = WGKEY_LEASESTART ∨ key = WGKEY_LEASETIME ∨ key = WGKEY_ERRNO
      · rw [if_pos hu] at h
        cases hm : strtoumax10 v with
        | none =>
          rw [hm] at h
          dsimp only at h
          by_cases hv : v = []
          · rw [if_pos hv] at h
            injection h with h
            rw [← h]
          · rw [if_neg hv] at h
            cases h
        | some p =>
          rw [hm] at h
          dsimp only at h
          by_cases hc : UINT32_MAX < p.1 ∨ p.2 ≠ []
          · rw [if_pos hc] at h
            cases h
          · rw [if_neg hc] at h
            injection h with h
            rw [← h]
      · rw [if_neg hu] at h
        by_cases he : key = WGKEY_ERRMSG
        · rw [if_pos he] at h
          injection h with h
          rw [← h]
        · rw [if_neg he] at h
          cases h

theorem parse_line_body_attrV_key {l : List Nat} {ctx : Bool} {a : WgAttr}
    (h : parse_line_body l ctx = .attrV a) : WGKEY_ENDCMD < a.key := by
  unfold parse_line_body at h
  cases hsp : splitFirst 61 l with
  | none =>
    rw [hsp] at h
    cases h
  | some p =>
    obtain ⟨keyB, valB⟩ := p
    rw [hsp] at h
    dsimp only at h
    by_cases hk : parse_key keyB = WGKEY_UNKNOWN
    · rw [if_pos hk] at h
      cases h
    · rw [if_neg hk] at h
      cases ctx with
      | true =>
        rw [if_pos rfl] at h
        by_cases hle : WGKEY_ENDCMD ≤ parse_key keyB
        · rw [if_pos hle] at h
          cases h
        · rw [if_neg hle] at h
          cases hm : strtoumax10 valB with
          | none =>
            rw [hm] at h
            dsimp only at h
            by_cases hv : valB = []
            · rw [if_pos hv] at h
              cases h
            · rw [if_neg hv] at h
              cases h
          | some p2 =>
            rw [hm] at h
            dsimp only at h
            by_cases hc : UINT32_MAX < p2.1 ∨ p2.2 ≠ []
            · rw [if_pos hc] at h
              cases h
            · rw [if_neg hc] at h
              by_cases h1 : p2.1 = 1
              · rw [if_pos h1] at h
                cases h
              · rw [if_neg h1] at h
                cases h
      | false =>
        rw [if_neg (by simp)] at h
        by_cases hle : parse_key keyB ≤ WGKEY_ENDCMD
        · rw [if_pos hle] at h
          cases h
        · rw [if_neg hle] at h
          cases hpv : parse_value (parse_key keyB) valB with
          | none =>
            rw [hpv] at h
            cases h
          | some a0 =>
            rw [hpv] at h
            dsimp only at h
            injection h with h
            rw [← h, parse_value_key hpv]
            exact Nat.not_le.mp hle

theorem parse_line_attr_inc {buf : List Nat} {ctx : Bool} {n : Nat} {a : WgAttr}
    (h : parse_line buf ctx = .attr n a) (hk : a.key = WGKEY_INCOMPLETE) :
    findByte 10 (buf.take MAX_LINESIZE) = none ∧ buf.length < MAX_LINESIZE ∧
      n = buf.length ∧ a = ⟨WGKEY_INCOMPLETE, buf.length, AttrVal.raw buf⟩ := by
  unfold parse_line at h
  split at h
  · rename_i hf
    split at h
    · cases h
    · rename_i hlen
      simp only [PLRes.attr.injEq] at h
      obtain ⟨rfl, rfl⟩ := h
      exact ⟨hf, by omega, rfl, rfl⟩
  · cases h
  · rename_i k hf
    exfalso
    split at h
    · cases h
    · rename_i a0 hbody
      simp only [PLRes.attr.injEq] at h
      obtain ⟨-, rfl⟩ := h
      have := parse_line_body_attrV_key hbody
      rw [hk] at this
      exact absurd this (by decide)
    · cases h
    · cases h

theorem parse_line_append_found (buf d : List Nat) (ctx : Bool) {k : Nat}
    (hf : findByte 10 (buf.take MAX_LINESIZE) = some k) :
    parse_line (buf ++ d) ctx = parse_line buf ctx := by
  have hk := findByte_some_lt hf
  rw [List.length_take] at hk
  have hf2 : findByte 10 ((buf ++ d).take MAX_LINESIZE) = some k := by
    rw [List.take_append_eq_append_take]
    exact findByte_append_some hf
  unfold parse_line
  rw [hf, hf2]
  cases k with
  | zero => rfl
  | succ j =>
    dsimp only
    rw [List.take_append_of_le_length (by omega)]

theorem parse_line_append_toolong (buf d : List Nat) (ctx : Bool)
    (hf : findByte 10 (buf.take MAX_LINESIZE) = none)
    (hlen : MAX_LINESIZE ≤ buf.length) :
    parse_line (buf ++ d) ctx = .error E2BIG := by
  have ht : (buf ++ d).take MAX_LINESIZE = buf.take MAX_LINESIZE :=
    List.take_append_of_le_length hlen
  unfold parse_line
  rw [ht, hf, if_pos (by rw [List.length_append]; omega)]

theorem noIncTailB_of_noIncB {l : List WgAttr} (h : noIncB l = true) :
    noIncTailB l = true := by
  unfold noIncTailB
  cases hl : l.getLast? with
  | none => rfl
  | some a =>
    unfold noIncB at h
    rw [List.all_eq_true] at h
    have hmem : a ∈ l := by
      rcases List.eq_nil_or_concat l with rfl | ⟨l2, a2, rfl⟩
      · cases hl
      · rw [List.concat_eq_append, List.getLast?_concat] at hl
        injection hl with hl
        subst hl
        simp [List.concat_eq_append]
    exact h a hmem

theorem cleanAttrsB_of_noIncB {l : List WgAttr} (h : noIncB l = true) :
    cleanAttrsB l = true := by
  unfold noIncB cleanAttrsB at *
  rw [List.all_eq_true] at h ⊢
  intro a ha
  exact h a ((List.dropLast_sublist l).subset ha)

theorem parse_line_body_error_pos {l : List Nat} {ctx : Bool} {e : Int}
    (h : parse_line_body l ctx = .error e) : 0 < e := by
  unfold parse_line_body at h
  cases hsp : splitFirst 61 l with
  | none =>
    rw [hsp] at h
    injection h with h
    rw [← h]
    decide
  | some p =>
    obtain ⟨keyB, valB⟩ := p
    rw [hsp] at h
    dsimp only at h
    by_cases hk : parse_key keyB = WGKEY_UNKNOWN
    · rw [if_pos hk] at h
      injection h with h
      rw [← h]
      decide
    · rw [if_neg hk] at h
      cases ctx with
      | true =>
        rw [if_pos rfl] at h
        by_cases hle : WGKEY_ENDCMD ≤ parse_key keyB
        · rw [if_pos hle] at h
          injection h with h
          rw [← h]
          decide
        · rw [if_neg hle] at h
          cases hm : strtoumax10 valB with
          | none =>
            rw [hm] at h
            dsimp only at h
            by_cases hv : valB = []
            · rw [if_pos hv] at h
              cases h
            · rw [if_neg hv] at h
              injection h with h
              rw [← h]
              decide
          | some p2 =>
            rw [hm] at h
            dsimp only at h
            by_cases hc : UINT32_MAX < p2.1 ∨ p2.2 ≠ []
            · rw [if_pos hc] at h
              injection h with h
              rw [← h]
              decide
            · rw [if_neg hc] at h
              by_cases h1 : p2.1 = 1
              · rw [if_pos h1] at h
                cases h
              · rw [if_neg h1] at h
                cases h
      | false =>
        rw [if_neg (by simp)] at h
        by_cases hle : parse_key keyB ≤ WGKEY_ENDCMD
        · rw [if_pos hle] at h
          injection h with h
          rw [← h]
          decide
        · rw [if_neg hle] at h
          cases hpv : parse_value (parse_key keyB) valB with
          | none =>
            rw [hpv] at h
            injection h with h
            rw [← h]
            decide
          | some a0 =>
            rw [hpv] at h
            cases h

theorem parse_line_error_pos {buf : List Nat} {ctx : Bool} {e : Int}
    (h : parse_line buf ctx = .error e) : 0 < e := by
  unfold parse_line at h
  split at h
  · split at h
    · injection h with h
      rw [← h]
      decide
    · cases h
  · cases h
  · split at h
    · rename_i e0 hbody
      injection h with h
      rw [← h]
      exact parse_line_body_error_pos hbody
    · cases h
    · cases h
    · cases h

theorem parse_line_append_stable (buf d : List Nat) (ctx : Bool)
    (h : ∀ n a, parse_line buf ctx = PLRes.attr n a → a.key ≠ WGKEY_INCOMPLETE) :
    parse_line (buf ++ d) ctx = parse_line buf ctx := by
  cases hf : findByte 10 (buf.take MAX_LINESIZE) with
  | some k => exact parse_line_append_found buf d ctx hf
  | none =>
    by_cases hlen : MAX_LINESIZE ≤ buf.length
    · rw [parse_line_append_toolong buf d ctx hf hlen]
      unfold parse_line
      rw [hf, if_pos hlen]
    · exfalso
      have hfrag : parse_line buf ctx =
          .attr buf.length ⟨WGKEY_INCOMPLETE, buf.length, AttrVal.raw buf⟩ := by
        unfold parse_line
        rw [hf, if_neg hlen]
      exact h _ _ hfrag rfl

theorem spliceFragment_append (req : WgReq) (c d : List Nat) :
    spliceFragment req (c ++ d) = ((spliceFragment req c).1, (spliceFragment req c).2 ++ d) := by
  unfold spliceFragment
  cases hl : req.attrs.getLast? with
  | none => rfl
  | some a =>
    dsimp only
    split <;> simp [List.append_assoc]

theorem splice_noInc (req : WgReq) (c : List Nat) (h : cleanAttrsB req.attrs = true) :
    noIncB (spliceFragment req c).1.attrs = true := by
  rcases List.eq_nil_or_concat req.attrs with hnil | ⟨l2, a, heq⟩
  · unfold spliceFragment
    rw [hnil, List.getLast?_nil]
    dsimp only
    unfold noIncB
    rw [hnil]
    rfl
  · rw [List.concat_eq_append] at heq
    unfold spliceFragment
    rw [heq, List.getLast?_concat]
    dsimp only
    unfold cleanAttrsB at h
    rw [heq, List.dropLast_concat] at h
    by_cases hk : a.key = WGKEY_INCOMPLETE
    · rw [if_pos hk]
      dsimp only
      rw [List.dropLast_concat]
      unfold noIncB
      exact h
    · rw [if_neg hk]
      dsimp only
      unfold noIncB
      rw [heq, List.all_append, h]
      simp [hk]

theorem parse_request_no_nul (req : WgReq) (buf : List Nat)
    (h0 : buf.contains 0 = false) :
    parse_request req buf =
      prLoop (spliceFragment req buf).1 (spliceFragment req buf).2 := by
  unfold parse_request
  rw [h0]
  simp

theorem prLoop_append_aux : ∀ (m : Nat) (u : List Nat), u.length = m →
    ∀ (d : List Nat) (req : WgReq), noIncB req.attrs = true →
    prLoop req (u ++ d) =
      (if (prLoop req u).1 = 1
       then prLoop (spliceFragment (prLoop req u).2 d).1 (spliceFragment (prLoop req u).2 d).2
       else prLoop req u) := by
  intro m
  induction m using Nat.strong_induction_on with
  | _ m ih =>
    intro u hu d req hreq
    cases u with
    | nil =>
      rw [List.nil_append, prLoop_nil]
      rw [if_pos rfl, spliceFragment_noop req d (noIncTailB_of_noIncB hreq)]
    | cons b bs =>
      have hbne : (b :: bs) ≠ [] := List.cons_ne_nil b bs
      have hbdne : (b :: bs) ++ d ≠ [] := by simp
      cases hpl : parse_line (b :: bs) (req.cmd == WGKEY_UNKNOWN) with
      | done =>
        have hst : parse_line ((b :: bs) ++ d) (req.cmd == WGKEY_UNKNOWN) = .done := by
          rw [parse_line_append_stable _ d _ (fun n a hc => by rw [hpl] at hc; cases hc), hpl]
        rw [prLoop_step req ((b :: bs) ++ d) hbdne, hst, prLoop_step req (b :: bs) hbne, hpl]
        dsimp only
        rw [if_neg (by decide)]
      | error e =>
        have hepos := parse_line_error_pos hpl
        have hst : parse_line ((b :: bs) ++ d) (req.cmd == WGKEY_UNKNOWN) = .error e := by
          rw [parse_line_append_stable _ d _ (fun n a hc => by rw [hpl] at hc; cases hc), hpl]
        rw [prLoop_step req ((b :: bs) ++ d) hbdne, hst, prLoop_step req (b :: bs) hbne, hpl]
        dsimp only
        rw [if_neg (by omega)]
      | cmdBadVer c v =>
        have hst : parse_line ((b :: bs) ++ d) (req.cmd == WGKEY_UNKNOWN) = .cmdBadVer c v := by
          rw [parse_line_append_stable _ d _ (fun n a hc => by rw [hpl] at hc; cases hc), hpl]
        rw [prLoop_step req ((b :: bs) ++ d) hbdne, hst, prLoop_step req (b :: bs) hbne, hpl]
        dsimp only
        rw [if_neg (by decide)]
      | cmdOk n c v =>
        obtain ⟨hnp, hnl⟩ := parse_line_cmdOk_bounds hpl
        have hst : parse_line ((b :: bs) ++ d) (req.cmd == WGKEY_UNKNOWN) = .cmdOk n c v := by
          rw [parse_line_append_stable _ d _ (fun n2 a2 hc => by rw [hpl] at hc; cases hc), hpl]
        rw [prLoop_step req ((b :: bs) ++ d) hbdne, hst, prLoop_step req (b :: bs) hbne, hpl]
        dsimp only
        rw [List.drop_append_of_le_length hnl]
        exact ih ((b :: bs).drop n).length
          (by simp only [List.length_drop, List.length_cons] at hu ⊢; omega)
          ((b :: bs).drop n) rfl d { req with cmd := c, version := v } hreq
      | attr n a =>
        by_cases hkey : a.key = WGKEY_INCOMPLETE
        · obtain ⟨hf, hlen, hn, ha⟩ := parse_line_attr_inc hpl hkey
          rw [prLoop_step req (b :: bs) hbne, hpl]
          dsimp only
          rw [hn, List.drop_length, prLoop_nil]
          dsimp only
          rw [if_pos rfl]
          subst ha
          have hsplice : spliceFragment
              { req with attrs := req.attrs ++
                  [⟨WGKEY_INCOMPLETE, (b :: bs).length, AttrVal.raw (b :: bs)⟩] } d =
              (req, (b :: bs) ++ d) := by
            unfold spliceFragment
            dsimp only
            rw [List.getLast?_concat]
            dsimp only
            rw [if_pos rfl, List.dropLast_concat]
            rfl
          rw [hsplice]
        · obtain ⟨hnp, hnl⟩ := parse_line_attr_bounds hbne hpl
          have hst : parse_line ((b :: bs) ++ d) (req.cmd == WGKEY_UNKNOWN) = .attr n a := by
            rw [parse_line_append_stable _ d _
              (fun n2 a2 hc => by
                rw [hpl] at hc
                injection hc with e1 e2
                exact e2 ▸ hkey), hpl]
          have hreq2 : noIncB (req.attrs ++ [a]) = true := by
            unfold noIncB at hreq ⊢
            rw [List.all_append, hreq]
            simp [hkey]
          rw [prLoop_step req ((b :: bs) ++ d) hbdne, hst, prLoop_step req (b :: bs) hbne, hpl]
          dsimp only
          rw [List.drop_append_of_le_length hnl]
          exact ih ((b :: bs).drop n).length
            (by simp only [List.length_drop, List.length_cons] at hu ⊢; omega)
            ((b :: bs).drop n) rfl d { req with attrs := req.attrs ++ [a] } hreq2

theorem prLoop_append (u d : List Nat) (req : WgReq) (h : noIncB req.attrs = true) :
    prLoop req (u ++ d) =
      (if (prLoop req u).1 = 1
       then prLoop (spliceFragment (prLoop req u).2 d).1 (spliceFragment (prLoop req u).2 d).2
       else prLoop req u) :=
  prLoop_append_aux u.length u rfl d req h

theorem contains_append_false_iff (x : Nat) (l₁ l₂ : List Nat) :
    (l₁ ++ l₂).contains x = false ↔ l₁.contains x = false ∧ l₂.contains x = false := by
  induction l₁ with
  | nil => simp
  | cons b bs ih =>
    simp_all [List.contains_cons]
    tauto

theorem parse_request_append (req : WgReq) (c d : List Nat)
    (hclean : cleanAttrsB req.attrs = true)
    (h1 : (parse_request req c).1 = 1)
    (hd0 : d.contains 0 = false) :
    parse_request req (c ++ d) = parse_request (parse_request req c).2 d := by
  have hc0 : c.contains 0 = false := by
    cases hcc : c.contains 0
    · rfl
    · exfalso
      unfold parse_request at h1
      rw [hcc, if_pos rfl] at h1
      have h1b : (-EINVAL : Int) = 1 := h1
      exact absurd h1b (by decide)
  have hcd0 : (c ++ d).contains 0 = false :=
    (contains_append_false_iff 0 c d).mpr ⟨hc0, hd0⟩
  rw [parse_request_no_nul req (c ++ d) hcd0, spliceFragment_append,
    prLoop_append _ _ _ (splice_noInc req c hclean)]
  rw [parse_request_no_nul req c hc0] at h1 ⊢
  rw [if_pos h1, parse_request_no_nul _ d hd0]

theorem parse_request_stop (req : WgReq) (c d : List Nat)
    (hclean : cleanAttrsB req.attrs = true)
    (h1 : (parse_request req c).1 ≠ 1)
    (hcd0 : (c ++ d).contains 0 = false) :
    parse_request req (c ++ d) = parse_request req c := by
  obtain ⟨hc0, hd0⟩ := (contains_append_false_iff 0 c d).mp hcd0
  rw [parse_request_no_nul req (c ++ d) hcd0, spliceFragment_append,
    prLoop_append _ _ _ (splice_noInc req c hclean)]
  rw [parse_request_no_nul req c hc0] at h1 ⊢
  rw [if_neg h1]

theorem prLoop_attrs_inv : ∀ (m : Nat) (u : List Nat), u.length = m →
    ∀ (req : WgReq), noIncB req.attrs = true →
    ((prLoop req u).1 ≠ 1 → noIncB (prLoop req u).2.attrs = true) ∧
    cleanAttrsB (prLoop req u).2.attrs = true := by
  intro m
  induction m using Nat.strong_induction_on with
  | _ m ih =>
    intro u hu req hreq
    cases u with
    | nil =>
      rw [prLoop_nil]
      exact ⟨fun _ => hreq, cleanAttrsB_of_noIncB hreq⟩
    | cons b bs =>
      have hbne : (b :: bs) ≠ [] := List.cons_ne_nil b bs
      cases hpl : parse_line (b :: bs) (req.cmd == WGKEY_UNKNOWN) with
      | done =>
        rw [prLoop_step req (b :: bs) hbne, hpl]
        exact ⟨fun _ => hreq, cleanAttrsB_of_noIncB hreq⟩
      | error e =>
        rw [prLoop_step req (b :: bs) hbne, hpl]
        exact ⟨fun _ => hreq, cleanAttrsB_of_noIncB hreq⟩
      | cmdBadVer c v =>
        rw [prLoop_step req (b :: bs) hbne, hpl]
        exact ⟨fun _ => hreq, cleanAttrsB_of_noIncB hreq⟩
      | cmdOk n c v =>
        obtain ⟨hnp, hnl⟩ := parse_line_cmdOk_bounds hpl
        rw [prLoop_step req (b :: bs) hbne, hpl]
        exact ih ((b :: bs).drop n).length
          (by simp only [List.length_drop, List.length_cons] at hu ⊢; omega)
          ((b :: bs).drop n) rfl { req with cmd := c, version := v } hreq
      | attr n a =>
        by_cases hkey : a.key = WGKEY_INCOMPLETE
        · obtain ⟨hf, hlen, hn, ha⟩ := parse_line_attr_inc hpl hkey
          rw [prLoop_step req (b :: bs) hbne, hpl]
          dsimp only
          rw [hn, List.drop_length, prLoop_nil]
          constructor
          · intro hcontra
            exact absurd rfl hcontra
          · unfold cleanAttrsB
            dsimp only
            rw [List.dropLast_concat]
            unfold noIncB at hreq
            exact hreq
        · obtain ⟨hnp, hnl⟩ := parse_line_attr_bounds hbne hpl
          have hreq2 : noIncB (req.attrs ++ [a]) = true := by
            unfold noIncB at hreq ⊢
            rw [List.all_append, hreq]
            simp [hkey]
          rw [prLoop_step req (b :: bs) hbne, hpl]
          exact ih ((b :: bs).drop n).length
            (by simp only [List.length_drop, List.length_cons] at hu ⊢; omega)
            ((b :: bs).drop n) rfl { req with attrs := req.attrs ++ [a] } hreq2

theorem parse_request_attrs_inv (req : WgReq) (buf : List Nat)
    (h : cleanAttrsB req.attrs = true) :
    cleanAttrsB (parse_request req buf).2.attrs = true ∧
    ((parse_request req buf).1 = 0 → noIncB (parse_request req buf).2.attrs = true) := by
  cases h0 : buf.contains 0 with
  | true =>
    unfold parse_request
    rw [h0, if_pos rfl]
    refine ⟨h, fun habs => ?_⟩
    have habs2 : (-EINVAL : Int) = 0 := habs
    exact absurd habs2 (by decide)
  | false =>
    rw [parse_request_no_nul req buf h0]
    obtain ⟨hi1, hi2⟩ := prLoop_attrs_inv (spliceFragment req buf).2.length
      (spliceFragment req buf).2 rfl (spliceFragment req buf).1 (splice_noInc req buf h)
    exact ⟨hi2, fun h0' => hi1 (by rw [h0']; decide)⟩

/-- C9: after any `parse_request` return on a request whose attribute list
satisfies the sentinel discipline (at most one `incomplete` node and only as
the last element), the result still satisfies it, and when the return value
is 0 (message complete) no sentinel is present at all — so it never reaches
the success callback. -/
theorem C9_sentinel_only_last (req : WgReq) (buf : List Nat)
    (h : cleanAttrsB req.attrs = true) :
    cleanAttrsB (parse_request req buf).2.attrs = true ∧
    ((parse_request req buf).1 = 0 → noIncB (parse_request req buf).2.attrs = true) :=
  parse_request_attrs_inv req buf h

/-- Witness for C9 on the fresh request and a complete command line. -/
theorem C9_witness :
    cleanAttrsB initReq.attrs = true ∧
    (cleanAttrsB (parse_request initReq (strBytes "request=1\n")).2.attrs = true ∧
     ((parse_request initReq (strBytes "request=1\n")).1 = 0 →
       noIncB (parse_request initReq (strBytes "request=1\n")).2.attrs = true)) :=
  ⟨rfl, C9_sentinel_only_last initReq (strBytes "request=1\n") rfl⟩

theorem C1_feed_aux : ∀ (chunks : List (List Nat)) (req rfin : WgReq),
    cleanAttrsB req.attrs = true →
    (parse_request req []).1 = 1 →
    parse_request req chunks.flatten = (0, rfin) →
    feedChunks req chunks = (0, rfin) := by
  intro chunks
  induction chunks with
  | nil =>
    intro req rfin hclean hq hp
    rw [List.flatten_nil] at hp
    rw [hp] at hq
    have hq2 : (0 : Int) = 1 := hq
    exact absurd hq2 (by decide)
  | cons c cs ih =>
    intro req rfin hclean hq hp
    rw [List.flatten_cons] at hp
    have hflat0 : (c ++ cs.flatten).contains 0 = false := by
      cases hcc : (c ++ cs.flatten).contains 0
      · rfl
      · exfalso
        unfold parse_request at hp
        rw [hcc, if_pos rfl] at hp
        injection hp with hp1 hp2
        exact absurd hp1 (by decide)
    show (if (parse_request req c).1 = 1
          then feedChunks (parse_request req c).2 cs
          else parse_request req c) = (0, rfin)
    by_cases hr : (parse_request req c).1 = 1
    · rw [if_pos hr]
      obtain ⟨-, hd0⟩ := (contains_append_false_iff 0 c cs.flatten).mp hflat0
      rw [parse_request_append req c cs.flatten hclean hr hd0] at hp
      refine ih (parse_request req c).2 rfin ?_ ?_ hp
      · exact (parse_request_attrs_inv req c hclean).1
      · have hnil := parse_request_append req c [] hclean hr rfl
        rw [List.append_nil] at hnil
        rw [← hnil]
        exact hr
    · rw [if_neg hr]
      rw [parse_request_stop req c cs.flatten hclean hr hflat0] at hp
      exact hp

/-- C1: for every request state without a stashed fragment (in particular a
fresh request) and every way of splitting a byte stream into chunks fed to
successive `parse_request` calls, if parsing the whole stream in one call
completes (returns 0) with a final request state, then the chunked feeding
completes with exactly the same final state and outcome. -/
theorem C1_fragment_splicing (chunks : List (List Nat)) (req rfin : WgReq)
    (hni : noIncB req.attrs = true)
    (hp : parse_request req chunks.flatten = (0, rfin)) :
    feedChunks req chunks = (0, rfin) := by
  apply C1_feed_aux chunks req rfin (cleanAttrsB_of_noIncB hni) ?_ hp
  rw [parse_request_clean req [] rfl (noIncTailB_of_noIncB hni), prLoop_nil]

/-- Witness for C1: the end-to-end request of the spec split mid-line into
two chunks gives the same final state as the single-chunk parse. -/
theorem C1_witness :
    noIncB initReq.attrs = true ∧
    parse_request initReq
        ([strBytes "request=1\nipv4=192.168.1.5/32\nlease",
          strBytes "time=3600\n\n"].flatten) =
      (0, { fd := -1, cmd := WGKEY_REQUEST, version := 1,
            attrs := [⟨WGKEY_IPV4, SIZEOF_WG_COMBINED_IP,
                AttrVal.ip ⟨AF_INET, [192, 168, 1, 5], 32⟩⟩,
              ⟨WGKEY_LEASETIME, 4, AttrVal.uint32 3600⟩],
            buf := none, buflen := 0 }) ∧
    feedChunks initReq
        [strBytes "request=1\nipv4=192.168.1.5/32\nlease",
         strBytes "time=3600\n\n"] =
      (0, { fd := -1, cmd := WGKEY_REQUEST, version := 1,
            attrs := [⟨WGKEY_IPV4, SIZEOF_WG_COMBINED_IP,
                AttrVal.ip ⟨AF_INET, [192, 168, 1, 5], 32⟩⟩,
              ⟨WGKEY_LEASETIME, 4, AttrVal.uint32 3600⟩],
            buf := none, buflen := 0 }) :=
  ⟨rfl, by decide, C1_fragment_splicing _ _ _ rfl (by decide)⟩

theorem findByte_none_take {x : Nat} : ∀ (l : List Nat) (m : Nat),
    findByte x l = none → findByte x (l.take m) = none := by
  intro l
  induction l with
  | nil =>
    intro m _
    simp [List.take_nil, findByte]
  | cons b bs ih =>
    intro m h
    cases m with
    | zero => rfl
    | succ m2 =>
      simp only [List.take_succ_cons, findByte] at h ⊢
      by_cases hb : b = x
      · rw [if_pos hb] at h
        cases h
      · rw [if_neg hb] at h ⊢
        rw [Option.map_eq_none'] at h ⊢
        exact ih m2 h

theorem findByte_replicate_none : ∀ n : Nat, findByte 10 (List.replicate n 97) = none := by
  intro n
  induction n with
  | zero => rfl
  | succ m ih => simp [List.replicate_succ, findByte, ih]

theorem contains_replicate_zero : ∀ n : Nat, (List.replicate n 97).contains 0 = false := by
  intro n
  induction n with
  | zero => rfl
  | succ m ih => simp_all [List.replicate_succ, List.contains_cons]

theorem C6_aux : ∀ (chunks : List (List Nat)) (f : List Nat) (req : WgReq),
    (∀ c ∈ chunks, c ≠ []) → chunks ≠ [] →
    (f = [] → noIncTailB req.attrs = true) →
    (f ≠ [] → ∃ A, req.attrs = A ++ [⟨WGKEY_INCOMPLETE, f.length, AttrVal.raw f⟩] ∧
      noIncTailB A = true) →
    f.length < MAX_LINESIZE →
    findByte 10 ((f ++ chunks.flatten).take MAX_LINESIZE) = none →
    (f ++ chunks.flatten).contains 0 = false →
    MAX_LINESIZE ≤ (f ++ chunks.flatten).length →
    (feedChunks req chunks).1 = -E2BIG := by
  intro chunks
  induction chunks with
  | nil =>
    intro f req _ hchne _ _ _ _ _ _
    exact absurd rfl hchne
  | cons c cs ih =>
    intro f req hcne _ hf0 hfS hflen hnb hnz hlen
    rw [List.flatten_cons] at hnb hnz hlen
    have hcne0 : c ≠ [] := hcne c (List.mem_cons_self c cs)
    have hsp : ∃ reqA, spliceFragment req c = (reqA, f ++ c) ∧
        noIncTailB reqA.attrs = true := by
      by_cases hf : f = []
      · subst hf
        exact ⟨req, spliceFragment_noop req c (hf0 rfl), hf0 rfl⟩
      · obtain ⟨A, hA, hAt⟩ := hfS hf
        refine ⟨{ req with attrs := A }, ?_, hAt⟩
        unfold spliceFragment
        rw [hA, List.getLast?_concat]
        dsimp only
        rw [if_pos rfl, List.dropLast_concat]
        rfl
    obtain ⟨reqA, hspA, hAt⟩ := hsp
    obtain ⟨hf0z, hc0z, hcs0z⟩ : f.contains 0 = false ∧ c.contains 0 = false ∧
        cs.flatten.contains 0 = false := by
      have h1 := (contains_append_false_iff 0 f (c ++ cs.flatten)).mp hnz
      have h2 := (contains_append_false_iff 0 c cs.flatten).mp h1.2
      exact ⟨h1.1, h2.1, h2.2⟩
    have hfc_ne : f ++ c ≠ [] := by
      intro hemp
      exact hcne0 (List.append_eq_nil.mp hemp).2
    have hassoc : f ++ (c ++ cs.flatten) = (f ++ c) ++ cs.flatten :=
      (List.append_assoc f c cs.flatten).symm
    have hpr : parse_request req c = prLoop reqA (f ++ c) := by
      rw [parse_request_no_nul req c hc0z, hspA]
    by_cases hL : MAX_LINESIZE ≤ (f ++ c).length
    · have htake : (f ++ (c ++ cs.flatten)).take MAX_LINESIZE =
          (f ++ c).take MAX_LINESIZE := by
        rw [hassoc, List.take_append_of_le_length hL]
      have hfb : findByte 10 ((f ++ c).take MAX_LINESIZE) = none := by
        rw [← htake]
        exact hnb
      have hple : parse_line (f ++ c) (reqA.cmd == WGKEY_UNKNOWN) = .error E2BIG := by
        unfold parse_line
        rw [hfb, if_pos hL]
      have hres : parse_request req c = (-E2BIG, reqA) := by
        rw [hpr, prLoop_step reqA (f ++ c) hfc_ne, hple]
      show (if (parse_request req c).1 = 1
            then feedChunks (parse_request req c).2 cs
            else parse_request req c).1 = -E2BIG
      rw [hres]
      dsimp only
      rw [if_neg (by decide)]
    · push_neg at hL
      have hfb : findByte 10 (f ++ c) = none := by
        have h1 := findByte_none_take ((f ++ (c ++ cs.flatten)).take MAX_LINESIZE)
          (f ++ c).length hnb
        rw [List.take_take, Nat.min_eq_left (Nat.le_of_lt hL), hassoc,
          List.take_append_of_le_length (Nat.le_refl _), List.take_length] at h1
        exact h1
      have hple : parse_line (f ++ c) (reqA.cmd == WGKEY_UNKNOWN) =
          .attr (f ++ c).length ⟨WGKEY_INCOMPLETE, (f ++ c).length, AttrVal.raw (f ++ c)⟩ := by
        unfold parse_line
        rw [List.take_of_length_le (Nat.le_of_lt hL), hfb, if_neg (by omega)]
      have hreq2 : parse_request req c =
          (1, { reqA with attrs := reqA.attrs ++
            [⟨WGKEY_INCOMPLETE, (f ++ c).length, AttrVal.raw (f ++ c)⟩] }) := by
        rw [hpr, prLoop_step reqA (f ++ c) hfc_ne, hple]
        dsimp only
        rw [List.drop_length, prLoop_nil]
      cases cs with
      | nil =>
        exfalso
        rw [List.flatten_nil, List.append_nil] at hlen
        omega
      | cons c2 cs2 =>
        show (if (parse_request req c).1 = 1
              then feedChunks (parse_request req c).2 (c2 :: cs2)
              else parse_request req c).1 = -E2BIG
        rw [hreq2]
        dsimp only
        rw [if_pos rfl]
        refine ih (f ++ c) _ (fun c3 hc3 => hcne c3 (List.mem_cons_of_mem c hc3))
          (List.cons_ne_nil c2 cs2) (fun habs => absurd habs hfc_ne)
          (fun _ => ⟨reqA.attrs, rfl, hAt⟩) hL ?_ ?_ ?_
        · rw [← hassoc]
          exact hnb
        · rw [← hassoc]
          exact hnz
        · rw [← hassoc]
          exact hlen

/-- C6: a stream whose leading record has no newline within the first
`MAX_LINESIZE` bytes and at least `MAX_LINESIZE` bytes total (an over-long
record) makes the chunked parse fail with `-E2BIG` (`LineTooLong`) no matter
how the NUL-free stream is split into non-empty chunks, including when the
record accumulates through spliced incomplete fragments. -/
theorem C6_line_too_long (s : List Nat) (chunks : List (List Nat)) (req : WgReq)
    (hni : noIncTailB req.attrs = true)
    (hflat : chunks.flatten = s)
    (hne : ∀ c ∈ chunks, c ≠ [])
    (hnz : s.contains 0 = false)
    (hnb : findByte 10 (s.take MAX_LINESIZE) = none)
    (hlen : MAX_LINESIZE ≤ s.length) :
    (feedChunks req chunks).1 = -E2BIG := by
  subst hflat
  have hch : chunks ≠ [] := by
    rintro rfl
    rw [List.flatten_nil] at hlen
    simp [MAX_LINESIZE] at hlen
  exact C6_aux chunks [] req hne hch (fun _ => hni) (fun hc => absurd rfl hc)
    (by decide) (by simpa using hnb) (by simpa using hnz) (by simpa using hlen)

/-- Witness for C6: a single chunk holding a `MAX_LINESIZE`-byte record and
its newline fails with `-E2BIG` on a fresh request. -/
theorem C6_witness :
    noIncTailB initReq.attrs = true ∧
    (feedChunks initReq [List.replicate MAX_LINESIZE 97 ++ [10]]).1 = -E2BIG := by
  refine ⟨rfl, C6_line_too_long (List.replicate MAX_LINESIZE 97 ++ [10]) _ initReq rfl
    (by simp) ?_ ?_ ?_ ?_⟩
  · intro c hc
    rw [List.mem_singleton] at hc
    subst hc
    simp
  · exact (contains_append_false_iff 0 _ _).mpr ⟨contains_replicate_zero _, by decide⟩
  · rw [List.take_append_of_le_length (by simp), List.take_replicate]
    simpa using findByte_replicate_none MAX_LINESIZE
  · simp only [List.length_append, List.length_replicate, List.length_cons,
      List.length_nil]
    omega
